import Mathlib

/-!
Verification development for the photomosaic engine of the pixelplay
repository (tiler/tiler.py).  The Python module is shallowly embedded:

* a numpy BGRA buffer becomes a row-major list of rows of pixels with
  natural-number channels;
* the per-pixel counting loop of mode_color becomes a fold over an
  insertion-ordered association list, matching the Python defaultdict
  iteration order and the first-maximal semantics of the builtin max;
* Python float scalars are modelled by exact rationals; the one use of
  an irrational value, the square root inside color_distance, is kept
  symbolically (the matcher compares distances of a single box, which
  all share the same frequency, so the comparison coincides with the
  comparison of the exact squared distances - proved below over the
  reals);
* the module-level configuration globals that the functions read
  (OVERLAP_TILES, PIXEL_SHIFT, POOL_SIZE) are passed as explicit
  arguments.
-/

/-- One BGRA pixel, 8 bits per channel (values 0..255 in the program). -/
structure Pixel where
  b : ℕ
  g : ℕ
  r : ℕ
  a : ℕ
deriving DecidableEq

/-- The all-zero pixel: the content of a freshly allocated canvas. -/
def zeroPix : Pixel := ⟨0, 0, 0, 0⟩

/-- A pixel buffer: a row-major grid of BGRA pixels (numpy array h x w x 4). -/
abbrev Image := List (List Pixel)

/-- Pixel lookup with the all-zero pixel as out-of-bounds default. -/
def pixAt (img : Image) (y x : ℕ) : Pixel := (img.getD y []).getD x zeroPix

/-- The (height, width) of a buffer, taken from the row list and first row,
as numpy shape[:2] is. -/
def imgShape (img : Image) : ℕ × ℕ := (img.length, (img.getD 0 []).length)

/-- An RGB triple used as a counting key in mode_color.  Integers, because the
code uses the tuple (-1, -1, -1) as the sentinel key for transparent pixels. -/
abbrev Color := ℤ × ℤ × ℤ

/-- The sentinel bucket key for fully transparent pixels (tiler.py line 74). -/
def sentinel : Color := (-1, -1, -1)

/-- The counting key of one pixel in mode_color: the BGR triple when the pixel
counts as a color (ignore_alpha set, or alpha nonzero), the sentinel
otherwise (tiler.py lines 71-74; the buffers reaching mode_color always have
four channels, so the len(x) < 4 guard of the source never fires). -/
def pixKey (ignore_alpha : Bool) (p : Pixel) : Color :=
  if ignore_alpha || p.a ≠ 0 then ((p.b : ℤ), (p.g : ℤ), (p.r : ℤ)) else sentinel

/-- Increment the count of a key in an insertion-ordered association list,
appending a fresh entry at the end when the key is new.  This is exactly the
behaviour of counter[key] += 1 on a Python defaultdict(int). -/
def bump (k : Color) : List (Color × ℕ) → List (Color × ℕ)
  | [] => [(k, 1)]
  | (c, n) :: rest => if c = k then (c, n + 1) :: rest else (c, n) :: bump k rest

/-- The counter built by the nested pixel loop of mode_color: keys appear in
first-occurrence order of the row-major scan. -/
def tally (ignore_alpha : Bool) (ps : List Pixel) : List (Color × ℕ) :=
  ps.foldl (fun acc p => bump (pixKey ignore_alpha p) acc) []

/-- First-maximal entry of the nonempty list e :: l: the entry kept by Python
max, which replaces the current best only on a strictly greater key. -/
def maxFrom (e : Color × ℕ) : List (Color × ℕ) → Color × ℕ
  | [] => e
  | x :: rest => if (maxFrom x rest).2 > e.2 then maxFrom x rest else e

/-- The first entry of maximal count, as Python max(counter, key=counter.get)
returns the first key attaining the maximum in iteration order. -/
def maxEntry : List (Color × ℕ) → Option (Color × ℕ)
  | [] => none
  | e :: rest => some (maxFrom e rest)

/-- mode_color (tiler.py lines 66-84): the most frequent counting bucket of
the buffer and its relative frequency; none both when the buffer is empty and
when the winning bucket is the transparent sentinel. -/
def mode_color (img : Image) (ignore_alpha : Bool) : Option (Color × ℚ) :=
  let ps := img.flatten
  let counter := tally ignore_alpha ps
  let total := ps.length
  if 0 < total then
    match maxEntry counter with
    | some (c, n) => if c = sentinel then none else some (c, (n : ℚ) / (total : ℚ))
    | none => none
  else none

/-- Number of pixels of a buffer whose counting key is a given bucket. -/
def keyCount (ignore_alpha : Bool) (c : Color) (img : Image) : ℕ :=
  img.flatten.countP (fun p => pixKey ignore_alpha p = c)

/-! Counting lemmas relating the association-list fold to keyCount. -/

/-- Total count of a key in an association list. -/
def acount (k : Color) : List (Color × ℕ) → ℕ
  | [] => 0
  | e :: rest => (if e.1 = k then e.2 else 0) + acount k rest

/-- Keys present in an association list. -/
def akeys (l : List (Color × ℕ)) : List Color := l.map Prod.fst

/-- C1, original claim is refuted here: a one-row region holding two fully
transparent pixels and one opaque pixel contains a pixel with nonzero alpha,
yet mode_color returns no dominant color, because the transparent sentinel
bucket wins the frequency maximum. -/
def c1Region : Image := [[⟨0, 0, 0, 0⟩, ⟨0, 0, 0, 0⟩, ⟨10, 20, 30, 255⟩]]

/-- Concrete image for the C1 amended witness: two opaque identical pixels
and one transparent pixel. -/
def c1WitnessImg : Image := [[⟨10, 20, 30, 255⟩, ⟨0, 0, 0, 0⟩, ⟨10, 20, 30, 255⟩]]

/-! The color quantizer (tiler.py lines 24-25). -/

/-- Round-half-to-even on rationals, the rounding rule of numpy round. -/
def npRound (q : ℚ) : ℤ :=
  if q - (⌊q⌋ : ℚ) < 1/2 then ⌊q⌋
  else if 1/2 < q - (⌊q⌋ : ℚ) then ⌊q⌋ + 1
  else if ⌊q⌋ % 2 = 0 then ⌊q⌋ else ⌊q⌋ + 1

/-- Quantization of one channel value, as in
round(img / 255 * n_colors) / n_colors * 255, over exact rationals. -/
def quantizeChannel (n_colors : ℕ) (v : ℚ) : ℚ :=
  ((npRound (v / 255 * n_colors) : ℤ) : ℚ) / n_colors * 255

/-- A pixel of the float array that color_quantization operates on. -/
structure FPixel where
  b : ℚ
  g : ℚ
  r : ℚ
  a : ℚ
deriving DecidableEq

/-- A float pixel buffer (numpy float array of shape h x w x 4). -/
abbrev FImage := List (List FPixel)

/-- color_quantization (tiler.py lines 24-25): the channel map applied to
every channel of every pixel, alpha included, as numpy broadcasting does. -/
def color_quantization (img : FImage) (n_colors : ℕ) : FImage :=
  img.map (List.map (fun p =>
    ⟨quantizeChannel n_colors p.b, quantizeChannel n_colors p.g,
     quantizeChannel n_colors p.r, quantizeChannel n_colors p.a⟩))

/-! Tile loading (tiler.py lines 126-154, load_tiles_with_config). -/

/-- The uint8 cast applied after quantization: nonnegative floats below 256
truncate to their floor. -/
def quantizeByte (n_colors : ℕ) (v : ℕ) : ℕ := (⌊quantizeChannel n_colors (v : ℚ)⌋).toNat

/-- Quantization of a byte pixel, all four channels (numpy broadcasting). -/
def quantizePixel (n_colors : ℕ) (p : Pixel) : Pixel :=
  ⟨quantizeByte n_colors p.b, quantizeByte n_colors p.g,
   quantizeByte n_colors p.r, quantizeByte n_colors p.a⟩

/-- color_quantization followed by the astype uint8 cast on a byte buffer. -/
def quantizeImage (n_colors : ℕ) (img : Image) : Image :=
  img.map (List.map (quantizePixel n_colors))

/-- One decoded image file as cv2.imread returns it: either three channels
(no alpha plane) or four.  The pixel grid always stores the BGR data; when
hasAlpha is false the stored alpha values are ignored. -/
structure RawImg where
  hasAlpha : Bool
  img : Image
deriving DecidableEq

/-- The cvtColor BGR2BGRA conversion of tiler.py line 140: a three-channel
image gets an opaque alpha plane; a four-channel image is left unchanged. -/
def toBGRA (t : RawImg) : Image :=
  if t.hasAlpha then t.img else t.img.map (List.map (fun p => ⟨p.b, p.g, p.r, 255⟩))

/-- One tile record as stored in a bucket (the dict of tiler.py line 148). -/
structure TileRec where
  tile : Image
  mode : Color
  rel_freq : ℚ
deriving DecidableEq

/-- The tile library: the defaultdict(list) mapping a resolution to its
bucket, kept as an insertion-ordered association list with unique keys. -/
abbrev Library := List ((ℕ × ℕ) × List TileRec)

/-- Append a record to the bucket of a resolution, creating the bucket at the
end when the resolution is new (defaultdict(list) append semantics). -/
def addTile (res : ℕ × ℕ) (rec : TileRec) : Library → Library
  | [] => [(res, [rec])]
  | (r, ts) :: rest =>
    if r = res then (r, ts ++ [rec]) :: rest else (r, ts) :: addTile res rec rest

/-- resize_image (tiler.py lines 60-62).  The output dimensions are the
truncated products of cv2.resize; the pixel sampling of cv2 (bilinear) is
modelled as nearest-neighbour sampling, which agrees exactly with cv2 at
scale 1, the only scale at which this development evaluates resized pixels
(the spec itself allows nearest or linear resampling). -/
def resize_image (img : Image) (scale : ℚ) : Image :=
  let h' := (⌊(img.length : ℚ) * scale⌋).toNat
  let w' := (⌊((img.getD 0 []).length : ℚ) * scale⌋).toNat
  (List.range h').map (fun y =>
    (List.range w').map (fun x =>
      pixAt img (⌊(y : ℚ) / scale⌋).toNat (⌊(x : ℚ) / scale⌋).toNat))

/-- Processing of one directory entry inside load_tiles_with_config: an
unreadable file (imread returning None) is skipped; otherwise the tile is
converted to BGRA, quantized, its dominant color computed with ignore_alpha
set, and, when a dominant color exists, one resized variant per configured
scale is appended to the bucket of its resolution. -/
def processEntry (cd : ℕ) (rs : List ℚ) (lib : Library) (entry : Option RawImg) : Library :=
  match entry with
  | none => lib
  | some raw =>
    let tile := quantizeImage cd (toBGRA raw)
    match mode_color tile true with
    | none => lib
    | some (mode, rel_freq) =>
      rs.foldl (fun l scale =>
        let t := resize_image tile scale
        addTile (imgShape t) ⟨t, mode, rel_freq⟩ l) lib

/-- load_tiles_with_config (tiler.py lines 126-154) restricted to directory
sources: each path is a directory listed as decoded entries.  The pickle
branch for non-directory paths performs file input and is not modelled; no
branch of the source raises any engine error, so the function is total and
simply returns the accumulated library. -/
def load_tiles_with_config (paths : List (List (Option RawImg)))
    (resizing_scales : List ℚ) (color_depth : ℕ) : Library :=
  paths.foldl (fun lib dir => dir.foldl (processEntry color_depth resizing_scales) lib) []

/-- The concrete fully transparent one-pixel tile used to refute C2. -/
def c2Raw : RawImg := ⟨true, [[⟨5, 5, 5, 0⟩]]⟩

/-! Box partitioning (tiler.py lines 158-169, image_boxes). -/

/-- One partition of the source buffer: the clipped sub-buffer together with
its top-left position in source coordinates, stored as (x, y) as the source
does. -/
structure Box0 where
  img : Image
  pos : ℕ × ℕ
deriving DecidableEq

/-- The numpy slice img[y : y + h, x : x + w]: clipped at the buffer edges,
never padded. -/
def subImage (img : Image) (y x h w : ℕ) : Image :=
  ((img.drop y).take h).map (fun row => (row.drop x).take w)

/-- Python range(0, stop, step) for a positive step: the multiples of step
below stop, in order. -/
def stepRange (stop step : ℕ) : List ℕ :=
  List.range' 0 ((stop + step - 1) / step) step

/-- image_boxes (tiler.py lines 158-169).  The pixel_shift argument models
the module global PIXEL_SHIFT: none (Python None, falsy) selects the
automatic shift np.flip(res), an explicit pair is used as is.  Boxes are
emitted row-major, y outer, x inner, each carrying its clipped sub-buffer and
its (x, y) origin. -/
def image_boxes (pixel_shift : Option (ℕ × ℕ)) (img : Image) (res : ℕ × ℕ) :
    List Box0 :=
  let shift := match pixel_shift with
    | none => (res.2, res.1)
    | some s => s
  (stepRange img.length shift.2).flatMap (fun y =>
    (stepRange ((img.getD 0 []).length) shift.1).map (fun x =>
      ⟨subImage img y x res.1 res.2, (x, y)⟩))

/-- The positions visited by the partition loops: row-major, y outer, x
inner, starting at (0, 0), incremented by the stride components. -/
def gridPositions (H W sy sx : ℕ) : List (ℕ × ℕ) :=
  (stepRange H sy).flatMap (fun y => (stepRange W sx).map (fun x => (x, y)))

/-- A buffer of exactly H rows, each of exactly W pixels. -/
def IsGrid (img : Image) (H W : ℕ) : Prop :=
  img.length = H ∧ ∀ row ∈ img, row.length = W

/-- Concrete 3 x 3 buffer for the C7 witness. -/
def c7Img : Image :=
  [[⟨1, 2, 3, 255⟩, ⟨4, 5, 6, 255⟩, ⟨7, 8, 9, 255⟩],
   [⟨1, 2, 3, 255⟩, ⟨4, 5, 6, 255⟩, ⟨7, 8, 9, 255⟩],
   [⟨1, 2, 3, 255⟩, ⟨4, 5, 6, 255⟩, ⟨7, 8, 9, 255⟩]]

/-! The matcher (tiler.py lines 172-195) and the compositor
(tiler.py lines 267-301). -/

/-- A match distance as most_similar_tile produces it.  The source value is
the float (1 + sqrt sq) / freq (color_distance is the euclidean distance over
the three RGB channels, tiler.py lines 172-180); the placeholder branch for a
box with no dominant color returns the literal 0.  The pair (sq, freq) is
kept exactly; sq is the squared RGB distance, an exact natural number. -/
inductive MatchDist where
  | zero : MatchDist
  | val (sq : ℕ) (freq : ℚ) : MatchDist
deriving DecidableEq

/-- The squared euclidean color distance over the three RGB channels of the
two integer color triples. -/
def color_distance_sq (c1 c2 : Color) : ℕ :=
  ((c1.1 - c2.1) ^ 2 + (c1.2.1 - c2.2.1) ^ 2 + (c1.2.2 - c2.2.2) ^ 2).toNat

/-- The search loop of most_similar_tile: keep the first tile of strictly
minimal distance.  Because every candidate distance of one box shares the
positive frequency divisor, the float comparison
(1 + sqrt s) / f < (1 + sqrt t) / f of the source coincides with the exact
comparison s < t of the squared distances; weighted_distance_lt_iff below
proves this over the reals. -/
def bestStep (c : Color) : Option (ℕ × Image) → TileRec → Option (ℕ × Image)
  | none, t => some (color_distance_sq c t.mode, t.tile)
  | some mi, t =>
    if color_distance_sq c t.mode < mi.1
    then some (color_distance_sq c t.mode, t.tile) else some mi

def bestTile (c : Color) (tiles : List TileRec) : Option (ℕ × Image) :=
  tiles.foldl (bestStep c) none

/-- A fresh all-zero canvas of the given height and width (np.zeros). -/
def zeroImage (h w : ℕ) : Image := List.replicate h (List.replicate w zeroPix)

/-- np.zeros(shape=t.shape): the all-zero buffer of the same shape. -/
def zerosLike (img : Image) : Image := zeroImage img.length ((img.getD 0 []).length)

/-- most_similar_tile (tiler.py lines 184-195).  A box with no dominant color
skips the search and yields the zero-filled placeholder shaped like the first
bucket tile with distance literal 0; otherwise the loop returns the first
minimal tile, or nothing when the bucket is empty (the source returns the
pair (None, None) there; on an empty bucket the placeholder branch of the
source raises IndexError, modelled as no result). -/
def most_similar_tile (box_mode_freq : Option (Color × ℚ)) (tiles : List TileRec) :
    Option (MatchDist × Image) :=
  match box_mode_freq with
  | none => tiles.head?.map (fun t0 => (MatchDist.zero, zerosLike t0.tile))
  | some cf => (bestTile cf.1 tiles).map (fun s => (MatchDist.val s.1 cf.2, s.2))

/-- A processed box as the compositor consumes it: the clipped source
sub-buffer, the (x, y) origin, the match distance and the matched tile.  The
distance type is a parameter: the compositor only ever compares distances
through the supplied ordering. -/
structure Box (δ : Type) where
  img : Image
  pos : ℕ × ℕ
  min_dist : δ
  tile : Image
deriving DecidableEq

/-- The tile alpha mask of a box at canvas coordinates (y, x): inside the
box region (whose extent is the clipped sub-buffer shape, as p2 = p1 +
box img shape in the source) and with a nonzero tile alpha there. -/
def maskAt {δ : Type} (b : Box δ) (y x : ℕ) : Prop :=
  b.pos.2 ≤ y ∧ y < b.pos.2 + b.img.length ∧
  b.pos.1 ≤ x ∧ x < b.pos.1 + (b.img.getD 0 []).length ∧
  (pixAt b.tile (y - b.pos.2) (x - b.pos.1)).a ≠ 0

instance maskAtDecidable {δ : Type} (b : Box δ) (y x : ℕ) :
    Decidable (maskAt b y x) := by
  unfold maskAt
  exact inferInstance

/-- The tile pixel a box contributes at canvas coordinates (y, x). -/
def tileValAt {δ : Type} (b : Box δ) (y x : ℕ) : Pixel :=
  pixAt b.tile (y - b.pos.2) (x - b.pos.1)

/-- np.any(img_box[mask]) of place_tile: some canvas pixel of the clipped
box region carries a nonzero value under the tile alpha mask. -/
def maskedAnyNonzero {δ : Type} (canvas : Image) (b : Box δ) : Bool :=
  let ib := subImage canvas b.pos.2 b.pos.1 b.img.length ((b.img.getD 0 []).length)
  (List.range ib.length).any (fun i =>
    (List.range ((ib.getD i []).length)).any (fun j =>
      decide ((pixAt b.tile i j).a ≠ 0) && decide (pixAt ib i j ≠ zeroPix)))

/-- img_box[mask] = tile[...][mask]: every canvas pixel inside the clipped
region with nonzero tile alpha receives the tile pixel, everything else is
kept. -/
def writeMasked {δ : Type} (canvas : Image) (b : Box δ) : Image :=
  (List.range canvas.length).map (fun y =>
    (List.range ((canvas.getD y []).length)).map (fun x =>
      if maskAt b y x then tileValAt b y x else pixAt canvas y x))

/-- place_tile (tiler.py lines 267-274).  The first argument models the
module global OVERLAP_TILES that the function reads: the masked write happens
when the global is set or the masked region is entirely zero. -/
def place_tile {δ : Type} (OVERLAP_TILES : Bool) (img : Image) (box : Box δ) : Image :=
  if OVERLAP_TILES || !(maskedAnyNonzero img box) then writeMasked img box else img

/-- The float comparison key of Python sorted, as a Boolean ordering on exact
rationals (kept kernel-reducible through the numerator and denominator). -/
def ratLe (a b : ℚ) : Bool := a.num * (b.den : ℤ) ≤ b.num * (a.den : ℤ)

/-- create_tiled_image_config (tiler.py lines 292-301).  The canvas starts as
np.zeros((res 1, res 2, 4)); the boxes are sorted by min_dist, descending
exactly when the effective overlap flag is set (Python sorted is stable and
reverse=True reverses the comparison, not the ties); each box is then placed
in order.  The module global OVERLAP_TILES is an explicit first argument: the
override parameter overlap_tiles only chooses the sort direction, while
place_tile keeps reading the global, as in the source. -/
def create_tiled_image_config {δ : Type} (le : δ → δ → Bool) (OVERLAP_TILES : Bool)
    (boxes : List (Box δ)) (res : ℕ × ℕ) (overlap_tiles : Option Bool) : Image :=
  let ov := overlap_tiles.getD OVERLAP_TILES
  let cmp : Box δ → Box δ → Bool :=
    fun u v => if ov then le v.min_dist u.min_dist else le u.min_dist v.min_dist
  (boxes.mergeSort cmp).foldl (place_tile OVERLAP_TILES) (zeroImage res.1 res.2)

/-- Concrete bucket for the C6 witness. -/
def c6Tiles : List TileRec :=
  [⟨[[⟨3, 3, 3, 255⟩, ⟨3, 3, 3, 255⟩]], (3, 3, 3), 1⟩]

/-- Concrete canvas and box for the C10 witness: the canvas already holds a
nonzero pixel under the box mask, so the placement is skipped whole. -/
def c10Canvas : Image := [[⟨1, 1, 1, 255⟩, ⟨0, 0, 0, 0⟩], [⟨0, 0, 0, 0⟩, ⟨0, 0, 0, 0⟩]]

/-- Concrete box for the C10 witness. -/
def c10Box : Box ℚ := ⟨[[⟨0, 0, 0, 0⟩, ⟨0, 0, 0, 0⟩]], (0, 0), 0, [[⟨9, 9, 9, 255⟩, ⟨9, 9, 9, 255⟩]]⟩

/-- The ascending stable sort of the non-overlap branch of the compositor. -/
def sortedAsc (boxes : List (Box ℚ)) : List (Box ℚ) :=
  boxes.mergeSort (fun u v => ratLe u.min_dist v.min_dist)

/-- The canvas states of the non-overlap compositing pass, in order: entry k
is the canvas after the first k boxes of the sorted list were placed. -/
def composeSeqNoOverlap (boxes : List (Box ℚ)) (rh rw : ℕ) : List Image :=
  List.scanl (place_tile false) (zeroImage rh rw) (sortedAsc boxes)

/-- Concrete box for the C4 witness: an opaque 1 x 1 tile at the origin. -/
def c4Box : Box ℚ := ⟨[[⟨0, 0, 0, 0⟩]], (0, 0), 2, [[⟨9, 9, 9, 255⟩]]⟩

/-- The descending stable sort of the overlap branch of the compositor. -/
def sortedDesc (boxes : List (Box ℚ)) : List (Box ℚ) :=
  boxes.mergeSort (fun u v => ratLe v.min_dist u.min_dist)

/-- Concrete boxes for the C5 witness: two overlapping opaque 1 x 1 tiles at
the origin with distances 2 and 1. -/
def c5Boxes : List (Box ℚ) :=
  [⟨[[⟨0, 0, 0, 0⟩]], (0, 0), 2, [[⟨7, 7, 7, 255⟩]]⟩,
   ⟨[[⟨0, 0, 0, 0⟩]], (0, 0), 1, [[⟨8, 8, 8, 255⟩]]⟩]

/-! The box-processing phase (tiler.py lines 224-263,
get_processed_image_boxes_from_img). -/

/-- One chunk split of a work list, as a process pool splits its input: the
chunk size is forced positive. -/
def chunksOf {α : Type} (c : ℕ) (xs : List α) : List (List α) :=
  if h : xs.length = 0 then []
  else xs.take (max 1 c) :: chunksOf c (xs.drop (max 1 c))
termination_by xs.length
decreasing_by
  simp only [List.length_drop]
  omega

/-- The pool-based parallel map: split the work list into chunks (the CPython
pool chunk size is the rounded-up quotient by four workers), map every chunk
independently, and reassemble the results in submission order.  pool.map and
pool.starmap are deterministic and order-preserving: worker scheduling never
reaches the result order. -/
def parMap {α β : Type} (nw : ℕ) (f : α → β) (xs : List α) : List β :=
  ((chunksOf ((xs.length + 4 * nw - 1) / (4 * nw)) xs).map (List.map f)).flatten

/-- The descending key order of sorted(tiles.items(), reverse=True): the
resolution keys of a dict are unique, so the list part of an item is never
compared. -/
def lexGeKey (a b : (ℕ × ℕ) × List TileRec) : Bool :=
  decide (b.1.1 < a.1.1) || (decide (a.1.1 = b.1.1) && decide (b.1.2 ≤ a.1.2))

/-- sorted(tiles.items(), reverse=True): the buckets in descending resolution
order. -/
def sortItemsDesc (lib : Library) : Library := lib.mergeSort lexGeKey

/-- The pixel_shift argument of the configurable pipeline: the sentinel
string auto forces the automatic shift, an explicit pair overrides the
global, none keeps the global. -/
inductive PShiftArg where
  | auto : PShiftArg
  | explicit (s : ℕ × ℕ) : PShiftArg

/-- get_processed_image_boxes_from_img (tiler.py lines 224-263).  The module
globals PIXEL_SHIFT and POOL_SIZE are explicit leading arguments; the
temporary override of the global shift is pure save and restore, so only the
effective shift matters.  For every bucket, in descending resolution order,
the boxes are cut, their dominant colors computed (ignore_alpha defaulted off)
and their best tiles searched; with an effective pool size above one both
maps run through the chunked pool map, otherwise sequentially.  Each box
record gains the match distance and tile of its result; a box whose bucket
result is missing stores no distance and, in the source, the None tile that
would crash later in place_tile, modelled by an empty placeholder image. -/
def get_processed_image_boxes_from_img
    (PIXEL_SHIFT : Option (ℕ × ℕ)) (POOL_SIZE : ℕ)
    (img : Image) (tiles : Library)
    (pool_size : Option ℕ) (pixel_shift : Option PShiftArg) :
    List (Box (Option MatchDist)) × (ℕ × ℕ) :=
  let shiftEff : Option (ℕ × ℕ) :=
    match pixel_shift with
    | some PShiftArg.auto => none
    | some (PShiftArg.explicit s) => some s
    | none => PIXEL_SHIFT
  let ps := pool_size.getD POOL_SIZE
  let usePool := 1 < ps
  let all_boxes :=
    (sortItemsDesc tiles).flatMap (fun rts =>
      let boxes := image_boxes shiftEff img rts.1
      let imgs := boxes.map Box0.img
      let modes :=
        if usePool then parMap ps (fun im => mode_color im false) imgs
        else imgs.map (fun im => mode_color im false)
      let msts :=
        if usePool then parMap ps (fun m => most_similar_tile m rts.2) modes
        else modes.map (fun m => most_similar_tile m rts.2)
      boxes.zipWith (fun b r =>
        ⟨b.img, b.pos, r.map Prod.fst, (r.map Prod.snd).getD (zeroImage 0 0)⟩) msts)
  (all_boxes, imgShape img)

theorem acount_bump (k k' : Color) (l : List (Color × ℕ)) :
    acount k (bump k' l) = acount k l + (if k' = k then 1 else 0) := by
  induction l with
  | nil => by_cases h : k' = k <;> simp [bump, acount, h]
  | cons e rest ih =>
    obtain ⟨c, n⟩ := e
    by_cases hck : c = k'
    · subst hck
      by_cases hkk : c = k
      · subst hkk; simp [bump, acount]; omega
      · simp [bump, acount, hkk]
    · simp only [bump, if_neg hck, acount, ih]
      omega

theorem acount_foldl (ia : Bool) (ps : List Pixel) (acc : List (Color × ℕ)) (k : Color) :
    acount k (ps.foldl (fun acc p => bump (pixKey ia p) acc) acc)
      = acount k acc + ps.countP (fun p => pixKey ia p = k) := by
  induction ps generalizing acc with
  | nil => simp
  | cons p rest ih =>
    simp only [List.foldl_cons, ih, List.countP_cons, acount_bump]
    by_cases h : pixKey ia p = k
    · simp [h]; omega
    · simp [h]

theorem acount_tally (ia : Bool) (ps : List Pixel) (k : Color) :
    acount k (tally ia ps) = ps.countP (fun p => pixKey ia p = k) := by
  simpa [acount] using acount_foldl ia ps [] k

theorem akeys_bump (k : Color) (l : List (Color × ℕ)) :
    akeys (bump k l) = if k ∈ akeys l then akeys l else akeys l ++ [k] := by
  induction l with
  | nil => simp [bump, akeys]
  | cons e rest ih =>
    obtain ⟨c, n⟩ := e
    by_cases hck : c = k
    · subst hck; simp [bump, akeys]
    · have hck' : ¬ (k = c) := fun h => hck h.symm
      have hstep : akeys (bump k ((c, n) :: rest)) = c :: akeys (bump k rest) := by
        simp [bump, if_neg hck, akeys]
      by_cases hmem : k ∈ akeys rest
      · rw [hstep, ih, if_pos hmem]
        have : k ∈ akeys ((c, n) :: rest) := by simp [akeys]; right; simpa [akeys] using hmem
        rw [if_pos this]
        simp [akeys]
      · rw [hstep, ih, if_neg hmem]
        have : k ∉ akeys ((c, n) :: rest) := by
          simp only [akeys, List.map_cons, List.mem_cons, not_or]
          exact ⟨hck', by simpa [akeys] using hmem⟩
        rw [if_neg this]
        simp [akeys]

theorem nodup_akeys_bump (k : Color) (l : List (Color × ℕ))
    (h : (akeys l).Nodup) : (akeys (bump k l)).Nodup := by
  rw [akeys_bump]
  by_cases hmem : k ∈ akeys l
  · simpa [hmem] using h
  · simpa [hmem, List.nodup_append] using h

theorem nodup_akeys_foldl (ia : Bool) (ps : List Pixel) (acc : List (Color × ℕ))
    (h : (akeys acc).Nodup) :
    (akeys (ps.foldl (fun acc p => bump (pixKey ia p) acc) acc)).Nodup := by
  induction ps generalizing acc with
  | nil => simpa using h
  | cons p rest ih => exact ih _ (nodup_akeys_bump _ _ h)

theorem nodup_akeys_tally (ia : Bool) (ps : List Pixel) :
    (akeys (tally ia ps)).Nodup :=
  nodup_akeys_foldl ia ps [] (by simp [akeys])

theorem acount_eq_zero_of_not_mem (k : Color) (l : List (Color × ℕ))
    (h : k ∉ akeys l) : acount k l = 0 := by
  induction l with
  | nil => rfl
  | cons e rest ih =>
    simp only [akeys, List.map_cons, List.mem_cons, not_or] at h
    have he : ¬ (e.1 = k) := fun hh => h.1 hh.symm
    simp [acount, he, ih (by simpa [akeys] using h.2)]

theorem acount_of_mem (k : Color) (n : ℕ) (l : List (Color × ℕ))
    (hnd : (akeys l).Nodup) (hmem : (k, n) ∈ l) : acount k l = n := by
  induction l with
  | nil => simp at hmem
  | cons e rest ih =>
    simp only [akeys, List.map_cons, List.nodup_cons] at hnd
    rcases List.mem_cons.mp hmem with h | h
    · subst h
      have hnotm : k ∉ akeys rest := by simpa [akeys] using hnd.1
      simp [acount, acount_eq_zero_of_not_mem k rest hnotm]
    · have hek : ¬ (e.1 = k) := by
        intro hh
        exact hnd.1 (by
          have : k ∈ akeys rest := List.mem_map_of_mem Prod.fst h
          simpa [hh, akeys] using this)
      simp [acount, hek, ih (by simpa [akeys] using hnd.2) h]

theorem mem_of_acount_pos (k : Color) (l : List (Color × ℕ))
    (h : 0 < acount k l) : ∃ n, (k, n) ∈ l := by
  induction l with
  | nil => simp [acount] at h
  | cons e rest ih =>
    by_cases he : e.1 = k
    · exact ⟨e.2, by simp [← he]⟩
    · simp only [acount, if_neg he, Nat.zero_add] at h
      obtain ⟨n, hn⟩ := ih h
      exact ⟨n, List.mem_cons_of_mem _ hn⟩

theorem maxFrom_mem (e : Color × ℕ) (l : List (Color × ℕ)) :
    maxFrom e l ∈ e :: l := by
  induction l generalizing e with
  | nil => simp [maxFrom]
  | cons x rest ih =>
    by_cases hgt : (maxFrom x rest).2 > e.2
    · have := ih x
      simp only [maxFrom, if_pos hgt]
      exact List.mem_cons_of_mem _ this
    · simp [maxFrom, if_neg hgt]

theorem maxFrom_ge (e : Color × ℕ) (l : List (Color × ℕ)) :
    ∀ x ∈ e :: l, x.2 ≤ (maxFrom e l).2 := by
  induction l generalizing e with
  | nil => intro x hx; simp at hx; subst hx; simp [maxFrom]
  | cons y rest ih =>
    intro x hx
    by_cases hgt : (maxFrom y rest).2 > e.2
    · simp only [maxFrom, if_pos hgt]
      rcases List.mem_cons.mp hx with h1 | h1
      · subst h1; omega
      · exact ih y x h1
    · simp only [maxFrom, if_neg hgt]
      rcases List.mem_cons.mp hx with h1 | h1
      · subst h1; exact le_refl _
      · have := ih y x h1
        omega

theorem maxEntry_mem (l : List (Color × ℕ)) (e : Color × ℕ)
    (h : maxEntry l = some e) : e ∈ l := by
  cases l with
  | nil => simp [maxEntry] at h
  | cons x rest =>
    have he : e = maxFrom x rest := by simpa [maxEntry] using h.symm
    exact he ▸ maxFrom_mem x rest

theorem maxEntry_ge (l : List (Color × ℕ)) (e : Color × ℕ)
    (h : maxEntry l = some e) : ∀ x ∈ l, x.2 ≤ e.2 := by
  cases l with
  | nil => simp [maxEntry] at h
  | cons x rest =>
    have he : e = maxFrom x rest := by simpa [maxEntry] using h.symm
    exact he ▸ maxFrom_ge x rest

theorem maxEntry_isSome (l : List (Color × ℕ)) (h : l ≠ []) :
    ∃ e, maxEntry l = some e := by
  cases l with
  | nil => exact absurd rfl h
  | cons x rest => exact ⟨maxFrom x rest, rfl⟩

theorem bump_ne_nil (k : Color) (l : List (Color × ℕ)) : bump k l ≠ [] := by
  cases l with
  | nil => simp [bump]
  | cons e rest =>
    obtain ⟨c, n⟩ := e
    by_cases h : c = k <;> simp [bump, h]

theorem foldl_bump_ne_nil (ia : Bool) (ps : List Pixel) (acc : List (Color × ℕ))
    (h : acc ≠ []) : ps.foldl (fun acc p => bump (pixKey ia p) acc) acc ≠ [] := by
  induction ps generalizing acc with
  | nil => simpa using h
  | cons p rest ih => exact ih _ (bump_ne_nil _ _)

theorem tally_ne_nil (ia : Bool) (ps : List Pixel) (h : ps ≠ []) :
    tally ia ps ≠ [] := by
  cases ps with
  | nil => exact absurd rfl h
  | cons p rest => exact foldl_bump_ne_nil ia rest _ (bump_ne_nil _ _)

/-- Characterisation of mode_color on a nonempty buffer: it returns the
winning bucket of the counter, the winner's stored count is the true pixel
count of its key, and the winner's count dominates the count of every key. -/
theorem mode_color_spec (img : Image) (ia : Bool) (h : img.flatten ≠ []) :
    ∃ m n, maxEntry (tally ia img.flatten) = some (m, n) ∧
      n = keyCount ia m img ∧
      (∀ c : Color, keyCount ia c img ≤ keyCount ia m img) ∧
      mode_color img ia =
        (if m = sentinel then none
         else some (m, (n : ℚ) / (img.flatten.length : ℚ))) := by
  obtain ⟨e, he⟩ := maxEntry_isSome _ (tally_ne_nil ia _ h)
  obtain ⟨m, n⟩ := e
  have hmem := maxEntry_mem _ _ he
  have hcount : n = keyCount ia m img := by
    have h1 := acount_of_mem m n _ (nodup_akeys_tally ia img.flatten) hmem
    have h2 := acount_tally ia img.flatten m
    rw [h1] at h2
    rw [keyCount]
    exact h2
  refine ⟨m, n, he, hcount, ?_, ?_⟩
  · intro c
    rcases Nat.eq_zero_or_pos (acount c (tally ia img.flatten)) with hz | hp
    · have : keyCount ia c img = 0 := by
        rw [keyCount, ← acount_tally ia img.flatten c, hz]
      simp [this]
    · obtain ⟨nc, hnc⟩ := mem_of_acount_pos _ _ hp
      have h1 := acount_of_mem c nc _ (nodup_akeys_tally ia img.flatten) hnc
      have h2 : nc = keyCount ia c img := by
        have h3 := acount_tally ia img.flatten c
        rw [h1] at h3
        rw [keyCount]
        exact h3
      have h3 := maxEntry_ge _ _ he (c, nc) hnc
      rw [← hcount, ← h2]
      exact h3
  · have htot : 0 < img.flatten.length := List.length_pos.mpr h
    simp only [mode_color, if_pos htot, he]

/-- C1 counterexample: the region c1Region contains a pixel with alpha not 0,
but the dominant-color computation yields the no-dominant-color result, so
the sentinel bucket wins even though not every pixel is transparent. -/
theorem C1_sentinel_wins_counterexample :
    (∃ p ∈ c1Region.flatten, p.a ≠ 0) ∧ mode_color c1Region false = none := by
  constructor
  · exact ⟨⟨10, 20, 30, 255⟩, by decide, by decide⟩
  · decide

/-- C1 (amended): the dominant-color computation returns the most frequent
bucket overall, sentinel included.  If some non-sentinel color strictly
outnumbers the transparent pixels, the result is a maximal non-sentinel color
with relative frequency count over total (transparent pixels included in the
total); if the transparent pixels strictly outnumber every color, the result
is the no-dominant-color answer even when opaque pixels are present. -/
theorem C1_mode_color_amended (img : Image) :
    ((∃ c : Color, c ≠ sentinel ∧ keyCount false sentinel img < keyCount false c img) →
      ∃ m : Color, m ≠ sentinel ∧
        mode_color img false =
          some (m, (keyCount false m img : ℚ) / (img.flatten.length : ℚ)) ∧
        ∀ c : Color, keyCount false c img ≤ keyCount false m img) ∧
    (0 < keyCount false sentinel img →
      (∀ c : Color, c ≠ sentinel → keyCount false c img < keyCount false sentinel img) →
      mode_color img false = none) := by
  constructor
  · rintro ⟨c0, hc0ne, hc0⟩
    have hcp : 0 < keyCount false c0 img := lt_of_le_of_lt (Nat.zero_le _) hc0
    have hne : img.flatten ≠ [] := by
      intro hemp
      rw [keyCount, hemp] at hcp
      simp at hcp
    obtain ⟨m, n, hmax, hn, hdom, heq⟩ := mode_color_spec img false hne
    have hms : m ≠ sentinel := by
      intro hm
      have hd := hdom c0
      rw [hm] at hd
      omega
    refine ⟨m, hms, ?_, hdom⟩
    rw [heq, if_neg hms, hn]
  · intro hpos hlt
    have hne : img.flatten ≠ [] := by
      intro hemp
      rw [keyCount, hemp] at hpos
      simp at hpos
    obtain ⟨m, n, hmax, hn, hdom, heq⟩ := mode_color_spec img false hne
    have hms : m = sentinel := by
      by_contra hm
      have h1 := hlt m hm
      have h2 := hdom sentinel
      omega
    rw [heq, if_pos hms]

/-- Witness for the amended C1 theorem at a concrete region. -/
theorem C1_mode_color_amended_witness :
    ∃ m : Color, m ≠ sentinel ∧
      mode_color c1WitnessImg false =
        some (m, (keyCount false m c1WitnessImg : ℚ) / (c1WitnessImg.flatten.length : ℚ)) ∧
      ∀ c : Color, keyCount false c c1WitnessImg ≤ keyCount false m c1WitnessImg :=
  (C1_mode_color_amended c1WitnessImg).1 ⟨(10, 20, 30), by decide, by decide⟩

theorem npRound_intCast (k : ℤ) : npRound (k : ℚ) = k := by
  simp only [npRound, Int.floor_intCast]
  norm_num

theorem quantizeChannel_idem (n : ℕ) (hn : 0 < n) (v : ℚ) :
    quantizeChannel n (quantizeChannel n v) = quantizeChannel n v := by
  unfold quantizeChannel
  have hn' : (n : ℚ) ≠ 0 := Nat.cast_ne_zero.mpr hn.ne'
  have harg : ((npRound (v / 255 * n) : ℤ) : ℚ) / n * 255 / 255 * n
      = ((npRound (v / 255 * n) : ℤ) : ℚ) := by
    field_simp
    ring
  rw [harg, npRound_intCast]

/-- C8: color quantization is idempotent: applying quantize at the same level
count twice equals applying it once, for every float pixel buffer and every
positive level count. -/
theorem C8_color_quantization_idempotent (x : FImage) (n : ℕ) (hn : 0 < n) :
    color_quantization (color_quantization x n) n = color_quantization x n := by
  unfold color_quantization
  rw [List.map_map]
  apply List.map_congr_left
  intro row hrow
  simp only [Function.comp]
  rw [List.map_map]
  apply List.map_congr_left
  intro p hp
  simp only [Function.comp]
  simp [quantizeChannel_idem n hn]

/-- Witness for C8 at a concrete buffer and level count 4. -/
theorem C8_color_quantization_idempotent_witness :
    color_quantization (color_quantization [[⟨7, 200, 13, 255⟩]] 4) 4 =
      color_quantization [[⟨7, 200, 13, 255⟩]] 4 :=
  C8_color_quantization_idempotent [[⟨7, 200, 13, 255⟩]] 4 (by decide)

theorem key_mem_bump (c k : Color) (l : List (Color × ℕ))
    (h : c ∈ akeys (bump k l)) : c ∈ akeys l ∨ c = k := by
  rw [akeys_bump] at h
  by_cases hm : k ∈ akeys l
  · rw [if_pos hm] at h; exact Or.inl h
  · rw [if_neg hm] at h
    rcases List.mem_append.mp h with h1 | h1
    · exact Or.inl h1
    · exact Or.inr (by simpa using h1)

theorem key_mem_foldl (ia : Bool) (c : Color) (ps : List Pixel) (acc : List (Color × ℕ))
    (h : c ∈ akeys (ps.foldl (fun acc p => bump (pixKey ia p) acc) acc)) :
    c ∈ akeys acc ∨ ∃ p ∈ ps, pixKey ia p = c := by
  induction ps generalizing acc with
  | nil => exact Or.inl (by simpa using h)
  | cons p rest ih =>
    rcases ih _ (by simpa using h) with h1 | h1
    · rcases key_mem_bump c _ _ h1 with h2 | h2
      · exact Or.inl h2
      · exact Or.inr ⟨p, List.mem_cons_self _ _, h2.symm⟩
    · obtain ⟨q, hq, hqc⟩ := h1
      exact Or.inr ⟨q, List.mem_cons_of_mem _ hq, hqc⟩

theorem key_of_mem_tally (ia : Bool) (c : Color) (n : ℕ) (ps : List Pixel)
    (h : (c, n) ∈ tally ia ps) : ∃ p ∈ ps, pixKey ia p = c := by
  have hk : c ∈ akeys (tally ia ps) := List.mem_map_of_mem Prod.fst h
  rcases key_mem_foldl ia c ps [] hk with h1 | h1
  · simp [akeys] at h1
  · exact h1

theorem pixKey_true_ne_sentinel (p : Pixel) : pixKey true p ≠ sentinel := by
  intro h
  simp only [pixKey, sentinel, Bool.true_or, if_pos] at h
  have h1 := congrArg Prod.fst h
  simp at h1

theorem addTile_ne_nil (res : ℕ × ℕ) (rec : TileRec) (l : Library) :
    addTile res rec l ≠ [] := by
  cases l with
  | nil => simp [addTile]
  | cons e rest =>
    obtain ⟨r, ts⟩ := e
    by_cases h : r = res <;> simp [addTile, h]

theorem foldl_scales_ne_nil (step : Library → ℚ → Library)
    (hstep : ∀ l s, step l s ≠ []) (rs : List ℚ) (acc : Library)
    (h : acc ≠ [] ∨ rs ≠ []) : rs.foldl step acc ≠ [] := by
  induction rs generalizing acc with
  | nil =>
    rcases h with h1 | h1
    · simpa using h1
    · exact absurd rfl h1
  | cons s rest ih => exact ih _ (Or.inl (hstep acc s))

/-- With ignore_alpha set every counting key is a nonnegative color triple,
so a nonempty buffer always has a dominant color. -/
theorem mode_color_ignore_alpha_ne_none (img : Image) (h : img.flatten ≠ []) :
    mode_color img true ≠ none := by
  obtain ⟨m, n, hmax, hn, hdom, heq⟩ := mode_color_spec img true h
  have hmem := maxEntry_mem _ _ hmax
  obtain ⟨p, hp, hpc⟩ := key_of_mem_tally true m n _ hmem
  have hms : m ≠ sentinel := hpc ▸ pixKey_true_ne_sentinel p
  rw [heq, if_neg hms]
  simp

theorem quantizeChannel_zero (n : ℕ) : quantizeChannel n ((0 : ℕ) : ℚ) = 0 := by
  have h : ((0 : ℕ) : ℚ) / 255 * n = ((0 : ℤ) : ℚ) := by norm_num
  rw [quantizeChannel, h, npRound_intCast]
  norm_num

theorem quantizeByte_zero (n : ℕ) : quantizeByte n 0 = 0 := by
  rw [quantizeByte, quantizeChannel_zero]
  norm_num

/-- C2 (amended): with ignore_alpha set, the dominant color of a tile is the
mode over all pixels regardless of alpha, so it exists for every tile with at
least one pixel; consequently every readable nonempty tile, fully transparent
ones included, is inserted into the library, and only a zero-pixel tile is
discarded. -/
theorem C2_load_keeps_transparent_tiles_amended (raw : RawImg) (cd : ℕ) (rs : List ℚ)
    (hrs : rs ≠ []) (hpx : (toBGRA raw).flatten ≠ []) :
    mode_color (quantizeImage cd (toBGRA raw)) true ≠ none ∧
    load_tiles_with_config [[some raw]] rs cd ≠ [] := by
  have hq : (quantizeImage cd (toBGRA raw)).flatten ≠ [] := by
    rw [quantizeImage, ← List.map_flatten]
    simpa using hpx
  have hmode : mode_color (quantizeImage cd (toBGRA raw)) true ≠ none := by
    obtain ⟨m, n, hmax, hn, hdom, heq⟩ := mode_color_spec _ true hq
    have hmem := maxEntry_mem _ _ hmax
    obtain ⟨p, hp, hpc⟩ := key_of_mem_tally true m n _ hmem
    have hms : m ≠ sentinel := hpc ▸ pixKey_true_ne_sentinel p
    rw [heq, if_neg hms]
    simp
  refine ⟨hmode, ?_⟩
  obtain ⟨mf, hmf⟩ := Option.ne_none_iff_exists'.mp hmode
  obtain ⟨mo, fr⟩ := mf
  obtain ⟨s, rs', rfl⟩ := List.exists_cons_of_ne_nil hrs
  simp only [load_tiles_with_config, List.foldl_cons, List.foldl_nil, processEntry, hmf]
  exact foldl_scales_ne_nil _ (fun l s => addTile_ne_nil _ _ l) _ _
    (Or.inl (addTile_ne_nil _ _ _))

/-- Witness for the amended C2 theorem: the fully transparent one-pixel tile
is assigned a dominant color and lands in the library. -/
theorem C2_load_keeps_transparent_tiles_amended_witness :
    mode_color (quantizeImage 32 (toBGRA ⟨true, [[⟨5, 5, 5, 0⟩]]⟩)) true ≠ none ∧
    load_tiles_with_config [[some ⟨true, [[⟨5, 5, 5, 0⟩]]⟩]] [1] 32 ≠ [] :=
  C2_load_keeps_transparent_tiles_amended ⟨true, [[⟨5, 5, 5, 0⟩]]⟩ 32 [1]
    (by decide) (by decide)

/-- C3 counterexample: a source list holding one existing but empty directory
(and likewise one whose entries are all unreadable) yields zero usable tiles,
yet load_tiles_with_config returns the empty library - the source has no
ConfigError and raises nothing on this path. -/
theorem C3_no_config_error_counterexample :
    load_tiles_with_config [[]] [1] 32 = [] ∧
    load_tiles_with_config [[none, none]] [1] 32 = [] := by
  constructor <;> rfl

/-- C3 (amended): load_tiles_with_config never raises a ConfigError - no such
error exists in the code; whenever the sources yield zero usable tiles it
simply returns the empty library, which downstream produces a blank canvas. -/
theorem C3_empty_library_amended (paths : List (List (Option RawImg)))
    (rs : List ℚ) (cd : ℕ) (h : ∀ dir ∈ paths, ∀ e ∈ dir, e = none) :
    load_tiles_with_config paths rs cd = [] := by
  have hdir : ∀ (dir : List (Option RawImg)), (∀ e ∈ dir, e = none) →
      ∀ lib, dir.foldl (processEntry cd rs) lib = lib := by
    intro dir
    induction dir with
    | nil => intro _ lib; rfl
    | cons e rest ih =>
      intro hall lib
      have he : e = none := hall e (List.mem_cons_self _ _)
      subst he
      simpa [processEntry] using ih (fun x hx => hall x (List.mem_cons_of_mem _ hx)) lib
  rw [load_tiles_with_config]
  induction paths with
  | nil => rfl
  | cons dir rest ih =>
    rw [List.foldl_cons, hdir dir (h dir (List.mem_cons_self _ _)) []]
    exact ih (fun d hd => h d (List.mem_cons_of_mem _ hd))

/-- Witness for the amended C3 theorem on a concrete all-unreadable source
list. -/
theorem C3_empty_library_amended_witness :
    load_tiles_with_config [[none], []] [1, 2] 32 = [] :=
  C3_empty_library_amended [[none], []] [1, 2] 32 (by decide)

theorem c2_tile_eq : quantizeImage 32 (toBGRA c2Raw) =
    [[⟨quantizeByte 32 5, quantizeByte 32 5, quantizeByte 32 5, 0⟩]] := by
  show quantizeImage 32 [[⟨5, 5, 5, 0⟩]] = _
  simp [quantizeImage, quantizePixel, quantizeByte_zero]

theorem c2_resize_eq :
    resize_image [[⟨quantizeByte 32 5, quantizeByte 32 5, quantizeByte 32 5, 0⟩]] 1 =
      [[⟨quantizeByte 32 5, quantizeByte 32 5, quantizeByte 32 5, 0⟩]] := by
  have h1 : ((⌊((1 : ℕ) : ℚ) * 1⌋).toNat) = 1 := by norm_num
  have h0 : ((⌊((0 : ℕ) : ℚ) / 1⌋).toNat) = 0 := by norm_num
  simp only [resize_image, List.length_cons, List.length_nil, List.getD]
  norm_num
  rfl

/-- C2 counterexample: loading a single readable one-pixel tile whose only
pixel is fully transparent produces a library in which some bucket holds a
nonempty tile all of whose pixels are fully transparent, so fully transparent
tiles are not excluded from the library. -/
theorem C2_transparent_tile_loaded_counterexample :
    ∃ bucket ∈ load_tiles_with_config [[some c2Raw]] [1] 32,
      ∃ t ∈ bucket.2, t.tile.flatten ≠ [] ∧ ∀ p ∈ t.tile.flatten, p.a = 0 := by
  have hne : (quantizeImage 32 (toBGRA c2Raw)).flatten ≠ [] := by
    rw [c2_tile_eq]; simp
  have hmode := mode_color_ignore_alpha_ne_none _ hne
  obtain ⟨mf, hmf⟩ := Option.ne_none_iff_exists'.mp hmode
  obtain ⟨mo, fr⟩ := mf
  have hlib : load_tiles_with_config [[some c2Raw]] [1] 32 =
      [((1, 1), [⟨[[⟨quantizeByte 32 5, quantizeByte 32 5, quantizeByte 32 5, 0⟩]], mo, fr⟩])] := by
    simp only [load_tiles_with_config, List.foldl_cons, List.foldl_nil, processEntry, hmf]
    rw [c2_tile_eq, c2_resize_eq]
    rfl
  rw [hlib]
  refine ⟨_, List.mem_cons_self _ _, _, List.mem_cons_self _ _, ?_, ?_⟩
  · simp
  · intro p hp
    simp at hp
    rw [hp]

theorem mem_stepRange_lt {stop step y : ℕ} (hstep : 0 < step)
    (hy : y ∈ stepRange stop step) : y < stop := by
  obtain ⟨i, hi, rfl⟩ := List.mem_range'.mp hy
  have h1 : (i + 1) * step ≤ ((stop + step - 1) / step) * step :=
    Nat.mul_le_mul_right step hi
  have h2 : ((stop + step - 1) / step) * step ≤ stop + step - 1 :=
    Nat.div_mul_le_self _ _
  have h3 : (i + 1) * step = i * step + step := by ring
  have h4 : step * i = i * step := by ring
  omega

theorem stepRange_cover {stop step y : ℕ} (hstep : 0 < step) (hy : y < stop) :
    step * (y / step) ∈ stepRange stop step := by
  refine List.mem_range'.mpr ⟨y / step, ?_, by omega⟩
  have h1 : stop + step - 1 = (stop - 1) + step := by omega
  rw [h1, Nat.add_div_right _ hstep]
  have h2 : y / step ≤ (stop - 1) / step := Nat.div_le_div_right (by omega)
  omega

theorem subImage_length (img : Image) (y x h w : ℕ) :
    (subImage img y x h w).length = min h (img.length - y) := by
  simp [subImage]

theorem subImage_row (img : Image) (y x h w i : ℕ)
    (hi : i < (subImage img y x h w).length) :
    (subImage img y x h w).getD i [] = ((img.getD (y + i) []).drop x).take w := by
  have hi2 : i < ((img.drop y).take h).length := by
    simpa [subImage] using hi
  have hi3 : i < (img.drop y).length := lt_of_lt_of_le hi2 (by simp [List.length_take])
  have hi4 : y + i < img.length := by
    rw [List.length_drop] at hi3
    omega
  rw [subImage, List.getD_eq_getElem _ _ (by simpa [subImage] using hi),
    List.getElem_map, List.getElem_take, List.getElem_drop,
    List.getD_eq_getElem _ _ hi4]

/-- C7: for a positive-dimension grid buffer and positive stride components
not exceeding the box resolution (the automatic stride equals the resolution,
the first disjunct of the hypothesis), the partition emits its boxes
row-major with y outer and x inner from (0, 0) in stride increments; each box
is the clipped sub-buffer at its recorded top-left position, its dimensions
clipped to the buffer bounds and never padded; and every buffer pixel is
covered by some box on both axes. -/
theorem C7_image_boxes_partition (img : Image) (H W rh rw sy sx : ℕ)
    (hgrid : IsGrid img H W) (hH : 0 < H) (hW : 0 < W)
    (hsy : 0 < sy) (hsx : 0 < sx) (hsyr : sy ≤ rh) (hsxr : sx ≤ rw)
    (ps : Option (ℕ × ℕ))
    (hps : (ps = none ∧ sx = rw ∧ sy = rh) ∨ ps = some (sx, sy)) :
    ((image_boxes ps img (rh, rw)).map Box0.pos = gridPositions H W sy sx) ∧
    (∀ b ∈ image_boxes ps img (rh, rw),
      b.img = subImage img b.pos.2 b.pos.1 rh rw ∧
      b.img.length = min rh (H - b.pos.2) ∧
      (∀ row ∈ b.img, row.length = min rw (W - b.pos.1))) ∧
    (∀ y, y < H → ∀ x, x < W → ∃ b ∈ image_boxes ps img (rh, rw),
      b.pos.2 ≤ y ∧ y < b.pos.2 + rh ∧ b.pos.1 ≤ x ∧ x < b.pos.1 + rw) := by
  have hlen : img.length = H := hgrid.1
  have hrow0 : (img.getD 0 []).length = W := by
    have h0 : 0 < img.length := by omega
    rw [List.getD_eq_getElem _ _ h0]
    exact hgrid.2 _ (List.getElem_mem h0)
  have hboxes : image_boxes ps img (rh, rw) =
      (stepRange H sy).flatMap (fun y =>
        (stepRange W sx).map (fun x => ⟨subImage img y x rh rw, (x, y)⟩)) := by
    rcases hps with ⟨h1, h2, h3⟩ | h1
    · subst h1; rw [image_boxes, hlen, hrow0]; rw [h2, h3]
    · subst h1; rw [image_boxes, hlen, hrow0]
  refine ⟨?_, ?_, ?_⟩
  · rw [hboxes, gridPositions, List.map_flatMap]
    simp only [List.map_map]
    rfl
  · intro b hb
    rw [hboxes] at hb
    obtain ⟨y, hy, hbx⟩ := List.mem_flatMap.mp hb
    obtain ⟨x, hx, rfl⟩ := List.mem_map.mp hbx
    have hyH : y < H := mem_stepRange_lt hsy hy
    have hxW : x < W := mem_stepRange_lt hsx hx
    refine ⟨rfl, ?_, ?_⟩
    · rw [subImage_length, hlen]
    · intro row hrow
      obtain ⟨r, hr, rfl⟩ := List.mem_map.mp hrow
      have hrW : r.length = W :=
        hgrid.2 _ (List.mem_of_mem_drop (List.mem_of_mem_take hr))
      simp [List.length_take, List.length_drop, hrW]
  · intro y hy x hx
    refine ⟨⟨subImage img (sy * (y / sy)) (sx * (x / sx)) rh rw,
      (sx * (x / sx), sy * (y / sy))⟩, ?_, ?_, ?_, ?_, ?_⟩
    · rw [hboxes]
      exact List.mem_flatMap.mpr ⟨sy * (y / sy), stepRange_cover hsy hy,
        List.mem_map.mpr ⟨sx * (x / sx), stepRange_cover hsx hx, rfl⟩⟩
    · show sy * (y / sy) ≤ y
      exact Nat.mul_div_le y sy
    · show y < sy * (y / sy) + rh
      have h1 := Nat.div_add_mod y sy
      have h2 : y % sy < sy := Nat.mod_lt _ hsy
      omega
    · show sx * (x / sx) ≤ x
      exact Nat.mul_div_le x sx
    · show x < sx * (x / sx) + rw
      have h1 := Nat.div_add_mod x sx
      have h2 : x % sx < sx := Nat.mod_lt _ hsx
      omega

/-- Witness for C7 at a 3 x 3 buffer with resolution (2, 2) and the automatic
stride: a non-divisible case with clipped edge boxes. -/
theorem C7_image_boxes_partition_witness :
    ((image_boxes none c7Img (2, 2)).map Box0.pos = gridPositions 3 3 2 2) ∧
    (∀ b ∈ image_boxes none c7Img (2, 2),
      b.img = subImage c7Img b.pos.2 b.pos.1 2 2 ∧
      b.img.length = min 2 (3 - b.pos.2) ∧
      (∀ row ∈ b.img, row.length = min 2 (3 - b.pos.1))) ∧
    (∀ y, y < 3 → ∀ x, x < 3 → ∃ b ∈ image_boxes none c7Img (2, 2),
      b.pos.2 ≤ y ∧ y < b.pos.2 + 2 ∧ b.pos.1 ≤ x ∧ x < b.pos.1 + 2) :=
  C7_image_boxes_partition c7Img 3 3 2 2 2 2 (by unfold IsGrid; exact ⟨rfl, by decide⟩)
    (by decide) (by decide) (by decide) (by decide) (by decide) (by decide) none
    (Or.inl ⟨rfl, rfl, rfl⟩)

/-- For one box all candidate distances share the positive frequency divisor,
so the float ordering of the source loop agrees with the ordering of the
exact squared distances. -/
theorem weighted_distance_lt_iff (s t : ℕ) (f : ℚ) (hf : 0 < f) :
    ((1 + Real.sqrt s) / (f : ℝ) < (1 + Real.sqrt t) / (f : ℝ)) ↔ s < t := by
  have hf' : (0 : ℝ) < (f : ℝ) := by exact_mod_cast hf
  rw [div_lt_div_right hf', add_lt_add_iff_left]
  constructor
  · intro h
    by_contra hle
    push_neg at hle
    have : Real.sqrt t ≤ Real.sqrt s :=
      Real.sqrt_le_sqrt (by exact_mod_cast hle)
    exact absurd h (not_lt.mpr this)
  · intro h
    exact Real.sqrt_lt_sqrt (Nat.cast_nonneg s) (by exact_mod_cast h)

theorem ratLe_iff (a b : ℚ) : ratLe a b = true ↔ a ≤ b := by
  rw [ratLe, decide_eq_true_eq, Rat.le_def]

theorem pixAt_ne_zero_bounds (c : Image) (y x : ℕ) (h : pixAt c y x ≠ zeroPix) :
    y < c.length ∧ x < (c.getD y []).length := by
  constructor
  · by_contra hy
    push_neg at hy
    rw [pixAt, List.getD_eq_default _ _ hy] at h
    simp [List.getD] at h
  · by_contra hx
    push_neg at hx
    rw [pixAt, List.getD_eq_default _ _ hx] at h
    exact h rfl

theorem writeMasked_length {δ : Type} (c : Image) (b : Box δ) :
    (writeMasked c b).length = c.length := by
  simp [writeMasked]

theorem writeMasked_row_length {δ : Type} (c : Image) (b : Box δ) (y : ℕ) :
    ((writeMasked c b).getD y []).length = (c.getD y []).length := by
  by_cases hy : y < c.length
  · rw [writeMasked, List.getD_eq_getElem _ _ (by simpa using hy), List.getElem_map,
      List.getElem_range]
    simp
  · push_neg at hy
    rw [List.getD_eq_default _ _ (by simpa [writeMasked] using hy),
      List.getD_eq_default _ _ hy]

theorem pixAt_writeMasked {δ : Type} (c : Image) (b : Box δ) (y x : ℕ)
    (hy : y < c.length) (hx : x < (c.getD y []).length) :
    pixAt (writeMasked c b) y x =
      if maskAt b y x then tileValAt b y x else pixAt c y x := by
  have hrow : (writeMasked c b).getD y [] =
      (List.range ((c.getD y []).length)).map
        (fun x => if maskAt b y x then tileValAt b y x else pixAt c y x) := by
    rw [writeMasked, List.getD_eq_getElem _ _ (by simpa using hy),
      List.getElem_map, List.getElem_range]
  rw [pixAt, hrow, List.getD_eq_getElem _ _ (by simpa using hx),
    List.getElem_map, List.getElem_range]

theorem pixAt_writeMasked_oob {δ : Type} (c : Image) (b : Box δ) (y x : ℕ)
    (h : ¬ (y < c.length ∧ x < (c.getD y []).length)) :
    pixAt (writeMasked c b) y x = pixAt c y x := by
  by_cases hy : y < c.length
  · have hx : (c.getD y []).length ≤ x := by
      push_neg at h
      exact h hy
    rw [pixAt, pixAt, List.getD_eq_default ((writeMasked c b).getD y []) _
      (by rw [writeMasked_row_length]; exact hx), List.getD_eq_default _ _ hx]
  · push_neg at hy
    rw [pixAt, pixAt, List.getD_eq_default (writeMasked c b) _
      (by rw [writeMasked_length]; exact hy), List.getD_eq_default _ _ hy]

theorem getD_take_drop (r : List Pixel) (x0 w j : ℕ)
    (hj : j < ((r.drop x0).take w).length) :
    ((r.drop x0).take w).getD j zeroPix = r.getD (x0 + j) zeroPix := by
  have hj2 : j < (r.drop x0).length := lt_of_lt_of_le hj (by simp [List.length_take])
  have hj3 : x0 + j < r.length := by
    rw [List.length_drop] at hj2
    omega
  rw [List.getD_eq_getElem _ _ hj, List.getElem_take, List.getElem_drop,
    List.getD_eq_getElem _ _ hj3]

theorem pixAt_subImage (c : Image) (y0 x0 h w i j : ℕ)
    (hi : i < (subImage c y0 x0 h w).length)
    (hj : j < ((subImage c y0 x0 h w).getD i []).length) :
    pixAt (subImage c y0 x0 h w) i j = pixAt c (y0 + i) (x0 + j) := by
  rw [pixAt, subImage_row c y0 x0 h w i hi]
  rw [subImage_row c y0 x0 h w i hi] at hj
  rw [getD_take_drop _ _ _ _ hj, pixAt]

theorem maskedAnyNonzero_iff {δ : Type} (c : Image) (b : Box δ) :
    maskedAnyNonzero c b = true ↔ ∃ y x, maskAt b y x ∧ pixAt c y x ≠ zeroPix := by
  rw [maskedAnyNonzero]
  simp only [List.any_eq_true, List.mem_range, Bool.and_eq_true, decide_eq_true_eq]
  constructor
  · rintro ⟨i, hi, j, hj, ha, hp⟩
    have hilen : i < min b.img.length (c.length - b.pos.2) := by
      rw [← subImage_length c b.pos.2 b.pos.1]
      exact hi
    have hrow := subImage_row c b.pos.2 b.pos.1 b.img.length
      ((b.img.getD 0 []).length) i hi
    have hjlen : j < min ((b.img.getD 0 []).length)
        ((c.getD (b.pos.2 + i) []).length - b.pos.1) := by
      rw [hrow] at hj
      simpa [List.length_take, List.length_drop] using hj
    refine ⟨b.pos.2 + i, b.pos.1 + j, ⟨by omega, by omega, by omega, by omega, ?_⟩, ?_⟩
    · have h1 : b.pos.2 + i - b.pos.2 = i := by omega
      have h2 : b.pos.1 + j - b.pos.1 = j := by omega
      rw [h1, h2]
      exact ha
    · rw [← pixAt_subImage c b.pos.2 b.pos.1 b.img.length
        ((b.img.getD 0 []).length) i j hi (by rw [hrow] at hj ⊢; exact hj)]
      exact hp
  · rintro ⟨y, x, ⟨hy1, hy2, hx1, hx2, ha⟩, hp⟩
    obtain ⟨hyb, hxb⟩ := pixAt_ne_zero_bounds c y x hp
    refine ⟨y - b.pos.2, ?_, x - b.pos.1, ?_, ?_, ?_⟩
    · rw [subImage_length]
      omega
    · rw [subImage_row c b.pos.2 b.pos.1 _ _ _ (by rw [subImage_length]; omega)]
      simp only [List.length_take, List.length_drop]
      have hyx : b.pos.2 + (y - b.pos.2) = y := by omega
      rw [hyx]
      omega
    · exact ha
    · have hyx : b.pos.2 + (y - b.pos.2) = y := by omega
      have hxx : b.pos.1 + (x - b.pos.1) = x := by omega
      rw [pixAt_subImage c b.pos.2 b.pos.1 _ _ _ _
        (by rw [subImage_length]; omega)
        (by
          rw [subImage_row c b.pos.2 b.pos.1 _ _ _ (by rw [subImage_length]; omega)]
          simp only [List.length_take, List.length_drop, hyx]
          omega), hyx, hxx]
      exact hp

theorem place_tile_skip {δ : Type} (c : Image) (b : Box δ)
    (h : ∃ y x, maskAt b y x ∧ pixAt c y x ≠ zeroPix) :
    place_tile false c b = c := by
  rw [place_tile]
  have hg : maskedAnyNonzero c b = true := (maskedAnyNonzero_iff c b).mpr h
  simp [hg]

theorem place_tile_write {δ : Type} (ov : Bool) (c : Image) (b : Box δ)
    (h : ov = true ∨ ∀ y x, maskAt b y x → pixAt c y x = zeroPix) :
    place_tile ov c b = writeMasked c b := by
  rw [place_tile]
  rcases h with h1 | h1
  · simp [h1]
  · have hg : maskedAnyNonzero c b = false := by
      rw [← Bool.not_eq_true]
      intro hc
      obtain ⟨y, x, hm, hp⟩ := (maskedAnyNonzero_iff c b).mp hc
      exact hp (h1 y x hm)
    simp [hg]

theorem writeMasked_eq_of_no_mask {δ : Type} (c : Image) (b : Box δ)
    (h : ∀ y x, ¬ maskAt b y x) : writeMasked c b = c := by
  apply List.ext_getElem (by simp [writeMasked])
  intro y hy1 hy2
  have hy2' : y < c.length := hy2
  have hrow : (writeMasked c b)[y] =
      (List.range ((c.getD y []).length)).map
        (fun x => if maskAt b y x then tileValAt b y x else pixAt c y x) := by
    simp only [writeMasked]
    rw [List.getElem_map, List.getElem_range]
  rw [hrow]
  apply List.ext_getElem
    (by rw [List.length_map, List.length_range, List.getD_eq_getElem _ _ hy2'])
  intro x hx1 hx2
  rw [List.getElem_map, List.getElem_range, if_neg (h _ _), pixAt,
    List.getD_eq_getElem _ _ hy2', List.getD_eq_getElem _ _ hx2]

theorem place_tile_noop_of_transparent {δ : Type} (ov : Bool) (c : Image) (b : Box δ)
    (h : ∀ p ∈ b.tile.flatten, p.a = 0) : place_tile ov c b = c := by
  have hnm : ∀ y x, ¬ maskAt b y x := by
    intro y x hm
    obtain ⟨h1, h2, h3, h4, h5⟩ := hm
    apply h5
    set yy := y - b.pos.2
    set xx := x - b.pos.1
    by_cases hin : yy < b.tile.length ∧ xx < (b.tile.getD yy []).length
    · have e1 : b.tile.getD yy [] = b.tile[yy] := List.getD_eq_getElem _ _ hin.1
      have hxx : xx < b.tile[yy].length := by rw [← e1]; exact hin.2
      have hmem : pixAt b.tile yy xx ∈ b.tile.flatten := by
        rw [pixAt, e1, List.getD_eq_getElem _ _ hxx]
        exact List.mem_flatten.mpr ⟨_, List.getElem_mem _, List.getElem_mem _⟩
      exact h _ hmem
    · have := pixAt_ne_zero_bounds b.tile yy xx
      by_cases hz : pixAt b.tile yy xx = zeroPix
      · rw [pixAt] at hz
        rw [pixAt, hz]
        rfl
      · exact absurd (this hz) hin
  have hg : maskedAnyNonzero c b = false := by
    rw [← Bool.not_eq_true]
    intro hc
    obtain ⟨y, x, hm, _⟩ := (maskedAnyNonzero_iff c b).mp hc
    exact hnm y x hm
  rw [place_tile]
  simp only [hg, Bool.not_false, Bool.or_true]
  exact writeMasked_eq_of_no_mask c b hnm

theorem place_tile_preserves_nonzero {δ : Type} (c : Image) (b : Box δ) (y x : ℕ)
    (h : pixAt c y x ≠ zeroPix) :
    pixAt (place_tile false c b) y x = pixAt c y x := by
  rw [place_tile]
  by_cases hg : maskedAnyNonzero c b
  · simp [hg]
  · simp only [hg, Bool.not_false, Bool.false_or, if_pos]
    obtain ⟨hy, hx⟩ := pixAt_ne_zero_bounds c y x h
    rw [pixAt_writeMasked c b y x hy hx]
    have hnm : ¬ maskAt b y x := by
      intro hm
      exact absurd ((maskedAnyNonzero_iff c b).mpr ⟨y, x, hm, h⟩) (by simpa using hg)
    simp [hnm]

theorem pixAt_place_tile_cases {δ : Type} (ov : Bool) (c : Image) (b : Box δ) (y x : ℕ) :
    pixAt (place_tile ov c b) y x = pixAt c y x ∨
    (maskAt b y x ∧ pixAt c y x = zeroPix ∨ ov = true) ∧
      maskAt b y x ∧ pixAt (place_tile ov c b) y x = tileValAt b y x := by
  rw [place_tile]
  by_cases hg : (ov || !maskedAnyNonzero c b) = true
  · rw [if_pos hg]
    by_cases hin : y < c.length ∧ x < (c.getD y []).length
    · rw [pixAt_writeMasked c b y x hin.1 hin.2]
      by_cases hm : maskAt b y x
      · right
        refine ⟨?_, hm, by rw [if_pos hm]⟩
        rcases Bool.or_eq_true _ _ |>.mp hg with ho | hz
        · exact Or.inr ho
        · left
          refine ⟨hm, ?_⟩
          by_contra hnz
          have : maskedAnyNonzero c b = true :=
            (maskedAnyNonzero_iff c b).mpr ⟨y, x, hm, hnz⟩
          simp [this] at hz
      · left
        rw [if_neg hm]
    · left
      exact pixAt_writeMasked_oob c b y x hin
  · rw [if_neg hg]
    left
    rfl

theorem bestStep_isSome (c : Color) (acc : Option (ℕ × Image)) (t : TileRec) :
    ∃ z, bestStep c acc t = some z := by
  cases acc with
  | none => exact ⟨_, rfl⟩
  | some mi =>
    by_cases h : color_distance_sq c t.mode < mi.1
    · exact ⟨_, by rw [bestStep, if_pos h]⟩
    · exact ⟨_, by rw [bestStep, if_neg h]⟩

theorem bestTile_isSome (c : Color) (tiles : List TileRec) (h : tiles ≠ []) :
    ∃ z, bestTile c tiles = some z := by
  rw [bestTile]
  obtain ⟨t, ts, rfl⟩ := List.exists_cons_of_ne_nil h
  rw [List.foldl_cons]
  obtain ⟨z0, hz0⟩ := bestStep_isSome c none t
  rw [hz0]
  clear hz0 h
  induction ts generalizing z0 with
  | nil => exact ⟨z0, rfl⟩
  | cons u us ih =>
    rw [List.foldl_cons]
    obtain ⟨z1, hz1⟩ := bestStep_isSome c (some z0) u
    rw [hz1]
    exact ih z1

theorem pixAt_zeroImage (h w y x : ℕ) : pixAt (zeroImage h w) y x = zeroPix := by
  rw [pixAt]
  by_cases hy : y < h
  · have hrow : (zeroImage h w).getD y [] = List.replicate w zeroPix := by
      rw [zeroImage, List.getD_eq_getElem _ _ (by simpa using hy), List.getElem_replicate]
    rw [hrow]
    by_cases hx : x < w
    · rw [List.getD_eq_getElem _ _ (by simpa using hx), List.getElem_replicate]
    · rw [List.getD_eq_default _ _ (by simpa using not_lt.mp hx)]
  · have hrow : (zeroImage h w).getD y [] = [] := by
      rw [zeroImage, List.getD_eq_default _ _ (by simpa using not_lt.mp hy)]
    rw [hrow]
    rfl

theorem zerosLike_flatten_transparent (img : Image) :
    ∀ p ∈ (zerosLike img).flatten, p.a = 0 := by
  intro p hp
  obtain ⟨row, hrow, hpr⟩ := List.mem_flatten.mp hp
  rw [zerosLike, zeroImage] at hrow
  have h1 : row = List.replicate ((img.getD 0 []).length) zeroPix :=
    List.eq_of_mem_replicate hrow
  rw [h1] at hpr
  rw [List.eq_of_mem_replicate hpr]
  rfl

/-- C6: for a nonempty bucket, a box with no dominant color skips the tile
search and yields the zero placeholder of the first bucket tile's shape with
distance zero; the placeholder is transparent everywhere; placing any box
whose tile is fully transparent leaves every canvas unchanged under either
overlap policy; and matching always yields a result on a nonempty bucket. -/
theorem C6_transparent_box_noop (tiles : List TileRec) (t0 : TileRec)
    (h0 : tiles.head? = some t0) :
    most_similar_tile none tiles = some (MatchDist.zero, zerosLike t0.tile) ∧
    (zerosLike t0.tile).length = t0.tile.length ∧
    (∀ row ∈ zerosLike t0.tile, row.length = (t0.tile.getD 0 []).length) ∧
    (∀ p ∈ (zerosLike t0.tile).flatten, p.a = 0) ∧
    (∀ (δ : Type) (ov : Bool) (canvas : Image) (b : Box δ),
      (∀ p ∈ b.tile.flatten, p.a = 0) → place_tile ov canvas b = canvas) ∧
    (∀ bmf : Option (Color × ℚ), ∃ r, most_similar_tile bmf tiles = some r) := by
  refine ⟨?_, ?_, ?_, zerosLike_flatten_transparent t0.tile,
    fun δ ov canvas b hb => place_tile_noop_of_transparent ov canvas b hb, ?_⟩
  · rw [most_similar_tile, h0]
    rfl
  · rw [zerosLike, zeroImage]
    simp
  · intro row hrow
    rw [zerosLike, zeroImage] at hrow
    rw [List.eq_of_mem_replicate hrow]
    simp
  · intro bmf
    have hne : tiles ≠ [] := by
      intro hnil
      rw [hnil] at h0
      simp at h0
    cases bmf with
    | none =>
      rw [most_similar_tile, h0]
      exact ⟨_, rfl⟩
    | some cf =>
      obtain ⟨z, hz⟩ := bestTile_isSome cf.1 tiles hne
      rw [most_similar_tile, hz]
      exact ⟨_, rfl⟩

/-- Witness for C6 at a one-tile bucket of 1 x 2 tiles. -/
theorem C6_transparent_box_noop_witness :
    most_similar_tile none c6Tiles =
      some (MatchDist.zero, zerosLike (⟨[[⟨3, 3, 3, 255⟩, ⟨3, 3, 3, 255⟩]], (3, 3, 3), 1⟩ : TileRec).tile) ∧
    (zerosLike (⟨[[⟨3, 3, 3, 255⟩, ⟨3, 3, 3, 255⟩]], (3, 3, 3), 1⟩ : TileRec).tile).length =
      (⟨[[⟨3, 3, 3, 255⟩, ⟨3, 3, 3, 255⟩]], (3, 3, 3), 1⟩ : TileRec).tile.length ∧
    (∀ row ∈ zerosLike (⟨[[⟨3, 3, 3, 255⟩, ⟨3, 3, 3, 255⟩]], (3, 3, 3), 1⟩ : TileRec).tile,
      row.length = ((⟨[[⟨3, 3, 3, 255⟩, ⟨3, 3, 3, 255⟩]], (3, 3, 3), 1⟩ : TileRec).tile.getD 0 []).length) ∧
    (∀ p ∈ (zerosLike (⟨[[⟨3, 3, 3, 255⟩, ⟨3, 3, 3, 255⟩]], (3, 3, 3), 1⟩ : TileRec).tile).flatten, p.a = 0) ∧
    (∀ (δ : Type) (ov : Bool) (canvas : Image) (b : Box δ),
      (∀ p ∈ b.tile.flatten, p.a = 0) → place_tile ov canvas b = canvas) ∧
    (∀ bmf : Option (Color × ℚ), ∃ r, most_similar_tile bmf c6Tiles = some r) :=
  C6_transparent_box_noop c6Tiles _ rfl

theorem scanl_getD_zero {α β : Type} (f : β → α → β) (bi : β) (l : List α) (d : β) :
    (List.scanl f bi l).getD 0 d = bi := by
  cases l <;> simp [List.scanl]

theorem scanl_getD_succ {α β : Type} (f : β → α → β) (bi : β) (l : List α) (k : ℕ)
    (hk : k < l.length) (d : β) (d2 : α) :
    (List.scanl f bi l).getD (k + 1) d =
      f ((List.scanl f bi l).getD k d) (l.getD k d2) := by
  induction l generalizing bi k with
  | nil => simp at hk
  | cons a rest ih =>
    rw [List.scanl_cons, List.singleton_append]
    cases k with
    | zero =>
      rw [List.getD_cons_succ, List.getD_cons_zero, List.getD_cons_zero,
        scanl_getD_zero]
    | succ k2 =>
      have hk2 : k2 < rest.length := by
        simpa using hk
      rw [List.getD_cons_succ, List.getD_cons_succ, List.getD_cons_succ,
        ih (f bi a) k2 hk2]

theorem foldl_eq_scanl_getD {α β : Type} (f : β → α → β) (bi : β) (l : List α) (d : β) :
    l.foldl f bi = (List.scanl f bi l).getD l.length d := by
  induction l generalizing bi with
  | nil => simp [List.scanl_nil]
  | cons a rest ih =>
    rw [List.foldl_cons, List.scanl_cons, List.singleton_append, List.length_cons,
      List.getD_cons_succ, ih (f bi a)]

theorem place_seq_persist {δ : Type} (init : Image) (l : List (Box δ)) (b0 : Box δ)
    (y x k : ℕ)
    (hk : pixAt ((List.scanl (place_tile false) init l).getD k []) y x ≠ zeroPix) :
    ∀ m, k ≤ m → m ≤ l.length →
      pixAt ((List.scanl (place_tile false) init l).getD m []) y x =
        pixAt ((List.scanl (place_tile false) init l).getD k []) y x := by
  intro m
  refine Nat.le_induction (fun _ => rfl) ?_ m
  intro n hkn ih hn1
  have hn : n < l.length := by omega
  rw [scanl_getD_succ (place_tile false) init l n hn [] b0]
  have hnz : pixAt ((List.scanl (place_tile false) init l).getD n []) y x ≠ zeroPix := by
    rw [ih (by omega)]
    exact hk
  rw [place_tile_preserves_nonzero _ _ y x hnz, ih (by omega)]

theorem place_seq_changed {δ : Type} (init : Image) (l : List (Box δ)) (b0 : Box δ)
    (y x k : ℕ) (hk : k < l.length)
    (hc : pixAt ((List.scanl (place_tile false) init l).getD (k + 1) []) y x ≠
      pixAt ((List.scanl (place_tile false) init l).getD k []) y x) :
    pixAt ((List.scanl (place_tile false) init l).getD k []) y x = zeroPix ∧
    pixAt ((List.scanl (place_tile false) init l).getD (k + 1) []) y x ≠ zeroPix := by
  have hstep := scanl_getD_succ (place_tile false) init l k hk [] b0
  rw [hstep] at hc ⊢
  rcases pixAt_place_tile_cases false
      ((List.scanl (place_tile false) init l).getD k []) (l.getD k b0) y x with
    h1 | ⟨hz, hm, hv⟩
  · exact absurd h1 hc
  · rcases hz with ⟨hm2, hzero⟩ | habs
    · refine ⟨hzero, ?_⟩
      rw [hv]
      intro hcontra
      have := hm.2.2.2.2
      rw [tileValAt] at hcontra
      rw [hcontra] at this
      exact this rfl
    · simp at habs

/-- C10: in non-overlap mode a box placement is all-or-nothing: when any
canvas pixel under the tile alpha mask is nonzero the placement leaves the
whole canvas untouched; otherwise every pixel under the mask receives its
tile pixel and every other pixel is kept. -/
theorem C10_place_tile_all_or_nothing {δ : Type} (canvas : Image) (b : Box δ) :
    ((∃ y x, maskAt b y x ∧ pixAt canvas y x ≠ zeroPix) →
      place_tile false canvas b = canvas) ∧
    ((∀ y x, maskAt b y x → pixAt canvas y x = zeroPix) →
      (place_tile false canvas b).length = canvas.length ∧
      (∀ y, ((place_tile false canvas b).getD y []).length = (canvas.getD y []).length) ∧
      ∀ y x, y < canvas.length → x < (canvas.getD y []).length →
        pixAt (place_tile false canvas b) y x =
          if maskAt b y x then tileValAt b y x else pixAt canvas y x) := by
  refine ⟨place_tile_skip canvas b, fun h => ?_⟩
  rw [place_tile_write false canvas b (Or.inr h)]
  exact ⟨writeMasked_length canvas b, writeMasked_row_length canvas b,
    fun y x hy hx => pixAt_writeMasked canvas b y x hy hx⟩

/-- Witness for C10: the occupied canvas blocks the box entirely. -/
theorem C10_place_tile_all_or_nothing_witness :
    place_tile false c10Canvas c10Box = c10Canvas :=
  (C10_place_tile_all_or_nothing c10Canvas c10Box).1 ⟨0, 0, by decide, by decide⟩

theorem ratLe_trans (u v w : Box ℚ)
    (h1 : ratLe u.min_dist v.min_dist = true) (h2 : ratLe v.min_dist w.min_dist = true) :
    ratLe u.min_dist w.min_dist = true :=
  (ratLe_iff _ _).mpr (le_trans ((ratLe_iff _ _).mp h1) ((ratLe_iff _ _).mp h2))

theorem ratLe_total (u v : Box ℚ) :
    (ratLe u.min_dist v.min_dist || ratLe v.min_dist u.min_dist) = true := by
  rcases le_total u.min_dist v.min_dist with h | h
  · simp [(ratLe_iff _ _).mpr h]
  · simp [(ratLe_iff _ _).mpr h]

theorem foldl_place_value {δ : Type} (ov : Bool) (l : List (Box δ)) (init : Image)
    (y x : ℕ)
    (h : pixAt (l.foldl (place_tile ov) init) y x ≠ pixAt init y x) :
    ∃ b ∈ l, maskAt b y x ∧
      pixAt (l.foldl (place_tile ov) init) y x = tileValAt b y x := by
  induction l generalizing init with
  | nil => exact absurd rfl h
  | cons b rest ih =>
    rw [List.foldl_cons] at h ⊢
    by_cases hb : pixAt (rest.foldl (place_tile ov) (place_tile ov init b)) y x =
        pixAt (place_tile ov init b) y x
    · rw [hb] at h ⊢
      rcases pixAt_place_tile_cases ov init b y x with h1 | ⟨_, hm, hv⟩
      · exact absurd h1 h
      · exact ⟨b, List.mem_cons_self _ _, hm, hv⟩
    · obtain ⟨b2, hb2, hm2, hv2⟩ := ih (place_tile ov init b) hb
      exact ⟨b2, List.mem_cons_of_mem _ hb2, hm2, hv2⟩

/-- C4: with the overlap flag off everywhere, the compositor is the in-order
pass over the boxes sorted ascending by match distance (a stable ascending
sort and a permutation of the pool) with first-fit placement; along that pass
no canvas pixel changes at two different steps, and every finally nonzero
pixel carries the tile pixel of some box of the pool whose mask covers it. -/
theorem C4_no_overlap_first_fit (boxes : List (Box ℚ)) (rh rw : ℕ) :
    (create_tiled_image_config ratLe false boxes (rh, rw) none =
      (composeSeqNoOverlap boxes rh rw).getD (sortedAsc boxes).length []) ∧
    (sortedAsc boxes).Pairwise (fun u v => u.min_dist ≤ v.min_dist) ∧
    (sortedAsc boxes).Perm boxes ∧
    (∀ y x i j, i < (sortedAsc boxes).length → j < (sortedAsc boxes).length →
      pixAt ((composeSeqNoOverlap boxes rh rw).getD (i + 1) []) y x ≠
        pixAt ((composeSeqNoOverlap boxes rh rw).getD i []) y x →
      pixAt ((composeSeqNoOverlap boxes rh rw).getD (j + 1) []) y x ≠
        pixAt ((composeSeqNoOverlap boxes rh rw).getD j []) y x →
      i = j) ∧
    (∀ y x,
      pixAt (create_tiled_image_config ratLe false boxes (rh, rw) none) y x ≠ zeroPix →
      ∃ b ∈ boxes, maskAt b y x ∧
        pixAt (create_tiled_image_config ratLe false boxes (rh, rw) none) y x =
          tileValAt b y x) := by
  have hcreate : create_tiled_image_config ratLe false boxes (rh, rw) none =
      (sortedAsc boxes).foldl (place_tile false) (zeroImage rh rw) := rfl
  have b0 : Box ℚ := ⟨[], (0, 0), 0, []⟩
  refine ⟨?_, ?_, ?_, ?_, ?_⟩
  · rw [hcreate, composeSeqNoOverlap, foldl_eq_scanl_getD]
  · have hs := @List.sorted_mergeSort (Box ℚ)
      (fun u v => ratLe u.min_dist v.min_dist)
      ratLe_trans ratLe_total boxes
    exact hs.imp (fun h => (ratLe_iff _ _).mp h)
  · exact List.mergeSort_perm boxes _
  · intro y x i j hi hj hci hcj
    by_contra hne
    rcases Nat.lt_or_ge i j with hij | hij
    · obtain ⟨hzi, hnzi⟩ := place_seq_changed _ _ b0 y x i hi hci
      obtain ⟨hzj, hnzj⟩ := place_seq_changed _ _ b0 y x j hj hcj
      have hpersist := place_seq_persist _ _ b0 y x (i + 1) hnzi j (by omega) (by omega)
      rw [hpersist] at hzj
      exact hnzi hzj
    · have hij2 : j < i := by omega
      obtain ⟨hzi, hnzi⟩ := place_seq_changed _ _ b0 y x i hi hci
      obtain ⟨hzj, hnzj⟩ := place_seq_changed _ _ b0 y x j hj hcj
      have hpersist := place_seq_persist _ _ b0 y x (j + 1) hnzj i (by omega) (by omega)
      rw [hpersist] at hzi
      exact hnzj hzi
  · intro y x hnz
    rw [hcreate] at hnz ⊢
    have hinit : pixAt (zeroImage rh rw) y x = zeroPix := pixAt_zeroImage rh rw y x
    obtain ⟨b, hb, hm, hv⟩ := foldl_place_value false (sortedAsc boxes)
      (zeroImage rh rw) y x (by rw [hinit]; exact hnz)
    exact ⟨b, (List.mergeSort_perm boxes _).mem_iff.mp hb, hm, hv⟩

/-- Witness for C4: composing the one-box pool writes the box's tile pixel at
the origin, and that pixel is the pixel of a pool box covering it. -/
theorem C4_no_overlap_first_fit_witness :
    ∃ b ∈ [c4Box], maskAt b 0 0 ∧
      pixAt (create_tiled_image_config ratLe false [c4Box] (2, 2) none) 0 0 =
        tileValAt b 0 0 := by
  have h1 : create_tiled_image_config ratLe false [c4Box] (2, 2) none =
      place_tile false (zeroImage 2 2) c4Box := by
    have h2 : create_tiled_image_config ratLe false [c4Box] (2, 2) none =
        (sortedAsc [c4Box]).foldl (place_tile false) (zeroImage 2 2) := rfl
    rw [h2, sortedAsc, List.mergeSort_singleton, List.foldl_cons, List.foldl_nil]
  refine (C4_no_overlap_first_fit [c4Box] 2 2).2.2.2.2 0 0 ?_
  rw [h1]
  decide

theorem ratGe_trans (u v w : Box ℚ)
    (h1 : ratLe v.min_dist u.min_dist = true) (h2 : ratLe w.min_dist v.min_dist = true) :
    ratLe w.min_dist u.min_dist = true :=
  (ratLe_iff _ _).mpr (le_trans ((ratLe_iff _ _).mp h2) ((ratLe_iff _ _).mp h1))

theorem ratGe_total (u v : Box ℚ) :
    (ratLe v.min_dist u.min_dist || ratLe u.min_dist v.min_dist) = true := by
  rcases le_total v.min_dist u.min_dist with h | h
  · simp [(ratLe_iff _ _).mpr h]
  · simp [(ratLe_iff _ _).mpr h]

theorem place_tile_length {δ : Type} (ov : Bool) (c : Image) (b : Box δ) :
    (place_tile ov c b).length = c.length := by
  rw [place_tile]
  by_cases hg : (ov || !maskedAnyNonzero c b) = true
  · rw [if_pos hg, writeMasked_length]
  · rw [if_neg hg]

theorem place_tile_row_length {δ : Type} (ov : Bool) (c : Image) (b : Box δ) (y : ℕ) :
    ((place_tile ov c b).getD y []).length = ((c.getD y []).length) := by
  rw [place_tile]
  by_cases hg : (ov || !maskedAnyNonzero c b) = true
  · rw [if_pos hg, writeMasked_row_length]
  · rw [if_neg hg]

theorem pixAt_place_tile_true_masked {δ : Type} (c : Image) (b : Box δ) (y x : ℕ)
    (hm : maskAt b y x) (hy : y < c.length) (hx : x < (c.getD y []).length) :
    pixAt (place_tile true c b) y x = tileValAt b y x := by
  rw [place_tile_write true c b (Or.inl rfl), pixAt_writeMasked c b y x hy hx,
    if_pos hm]

theorem pixAt_place_tile_true_unmasked {δ : Type} (c : Image) (b : Box δ) (y x : ℕ)
    (hm : ¬ maskAt b y x) :
    pixAt (place_tile true c b) y x = pixAt c y x := by
  rw [place_tile_write true c b (Or.inl rfl)]
  by_cases hin : y < c.length ∧ x < (c.getD y []).length
  · rw [pixAt_writeMasked c b y x hin.1 hin.2, if_neg hm]
  · exact pixAt_writeMasked_oob c b y x hin

theorem foldl_place_true_last {δ : Type} (l : List (Box δ)) (init : Image) (y x : ℕ)
    (hy : y < init.length) (hx : x < (init.getD y []).length) :
    ((∀ b ∈ l, ¬ maskAt b y x) ∧
      pixAt (l.foldl (place_tile true) init) y x = pixAt init y x) ∨
    (∃ l1 bstar l2, l = l1 ++ bstar :: l2 ∧ maskAt bstar y x ∧
      (∀ b2 ∈ l2, ¬ maskAt b2 y x) ∧
      pixAt (l.foldl (place_tile true) init) y x = tileValAt bstar y x) := by
  induction l generalizing init with
  | nil => exact Or.inl ⟨by simp, rfl⟩
  | cons b rest ih =>
    have hy2 : y < (place_tile true init b).length := by
      rw [place_tile_length]
      exact hy
    have hx2 : x < ((place_tile true init b).getD y []).length := by
      rw [place_tile_row_length]
      exact hx
    rcases ih (place_tile true init b) hy2 hx2 with ⟨hnone, heq⟩ | ⟨l1, bstar, l2, heql, hm, hnone, heq⟩
    · by_cases hmb : maskAt b y x
      · right
        refine ⟨[], b, rest, by simp, hmb, hnone, ?_⟩
        rw [List.foldl_cons, heq, pixAt_place_tile_true_masked init b y x hmb hy hx]
      · left
        refine ⟨?_, ?_⟩
        · intro b2 hb2
          rcases List.mem_cons.mp hb2 with h1 | h1
          · subst h1; exact hmb
          · exact hnone b2 h1
        · rw [List.foldl_cons, heq, pixAt_place_tile_true_unmasked init b y x hmb]
    · right
      refine ⟨b :: l1, bstar, l2, by rw [heql]; rfl, hm, hnone, ?_⟩
      rw [List.foldl_cons]
      exact heq

/-- C5: with the overlap flag on everywhere, the compositor is the in-order
pass over the boxes sorted descending by match distance (stable, a
permutation of the pool); a placement writes every masked in-bounds pixel
unconditionally; and every canvas pixel covered by at least one pool box ends
up holding the tile pixel of a covering box whose match distance is least
among all covering boxes. -/
theorem C5_overlap_best_match_wins (boxes : List (Box ℚ)) (rh rw : ℕ) :
    (create_tiled_image_config ratLe true boxes (rh, rw) none =
      (sortedDesc boxes).foldl (place_tile true) (zeroImage rh rw)) ∧
    (sortedDesc boxes).Pairwise (fun u v => v.min_dist ≤ u.min_dist) ∧
    (sortedDesc boxes).Perm boxes ∧
    (∀ (c : Image) (b : Box ℚ) (y x : ℕ), maskAt b y x →
      y < c.length → x < (c.getD y []).length →
      pixAt (place_tile true c b) y x = tileValAt b y x) ∧
    (∀ y x, y < rh → x < rw → (∃ b ∈ boxes, maskAt b y x) →
      ∃ bstar ∈ boxes, maskAt bstar y x ∧
        pixAt (create_tiled_image_config ratLe true boxes (rh, rw) none) y x =
          tileValAt bstar y x ∧
        ∀ b2 ∈ boxes, maskAt b2 y x → bstar.min_dist ≤ b2.min_dist) := by
  have hcreate : create_tiled_image_config ratLe true boxes (rh, rw) none =
      (sortedDesc boxes).foldl (place_tile true) (zeroImage rh rw) := rfl
  have hpair : (sortedDesc boxes).Pairwise (fun u v => v.min_dist ≤ u.min_dist) := by
    have hs := @List.sorted_mergeSort (Box ℚ)
      (fun u v => ratLe v.min_dist u.min_dist)
      ratGe_trans ratGe_total boxes
    exact hs.imp (fun h => (ratLe_iff _ _).mp h)
  refine ⟨hcreate, hpair, List.mergeSort_perm boxes _, ?_, ?_⟩
  · exact fun c b y x hm hy hx => pixAt_place_tile_true_masked c b y x hm hy hx
  · intro y x hy hx hcov
    have hy0 : y < (zeroImage rh rw).length := by
      rw [zeroImage]
      simpa using hy
    have hx0 : x < ((zeroImage rh rw).getD y []).length := by
      have : (zeroImage rh rw).getD y [] = List.replicate rw zeroPix := by
        rw [zeroImage, List.getD_eq_getElem _ _ (by simpa using hy),
          List.getElem_replicate]
      rw [this]
      simpa using hx
    rcases foldl_place_true_last (sortedDesc boxes) (zeroImage rh rw) y x hy0 hx0 with
      ⟨hnone, _⟩ | ⟨l1, bstar, l2, heql, hm, hnone, heq⟩
    · obtain ⟨b, hb, hmb⟩ := hcov
      exact absurd hmb (hnone b ((List.mergeSort_perm boxes _).mem_iff.mpr hb))
    · refine ⟨bstar, ?_, hm, ?_, ?_⟩
      · have : bstar ∈ sortedDesc boxes := by
          rw [heql]
          exact List.mem_append.mpr (Or.inr (List.mem_cons_self _ _))
        exact (List.mergeSort_perm boxes _).mem_iff.mp this
      · rw [hcreate]
        exact heq
      · intro b2 hb2 hmb2
        have hb2s : b2 ∈ sortedDesc boxes :=
          (List.mergeSort_perm boxes _).mem_iff.mpr hb2
        rw [heql] at hb2s hpair
        rcases List.mem_append.mp hb2s with h1 | h1
        · have := (List.pairwise_append.mp hpair).2.2 b2 h1 bstar
            (List.mem_cons_self _ _)
          exact this
        · rcases List.mem_cons.mp h1 with h2 | h2
          · subst h2; exact le_refl _
          · exact absurd hmb2 (hnone b2 h2)

/-- Witness for C5: with two boxes covering the origin, the final pixel comes
from a covering box of least match distance. -/
theorem C5_overlap_best_match_wins_witness :
    ∃ bstar ∈ c5Boxes, maskAt bstar 0 0 ∧
      pixAt (create_tiled_image_config ratLe true c5Boxes (1, 1) none) 0 0 =
        tileValAt bstar 0 0 ∧
      ∀ b2 ∈ c5Boxes, maskAt b2 0 0 → bstar.min_dist ≤ b2.min_dist :=
  (C5_overlap_best_match_wins c5Boxes 1 1).2.2.2.2 0 0 (by decide) (by decide)
    ⟨⟨[[⟨0, 0, 0, 0⟩]], (0, 0), 2, [[⟨7, 7, 7, 255⟩]]⟩, List.mem_cons_self _ _, by decide⟩

theorem chunksOf_flatten_aux {α : Type} (c : ℕ) :
    ∀ (n : ℕ) (xs : List α), xs.length ≤ n → (chunksOf c xs).flatten = xs := by
  intro n
  induction n with
  | zero =>
    intro xs h
    have hx : xs.length = 0 := by omega
    rw [chunksOf, dif_pos hx]
    rw [List.length_eq_zero] at hx
    subst hx
    rfl
  | succ n ih =>
    intro xs h
    by_cases hx : xs.length = 0
    · rw [chunksOf, dif_pos hx]
      rw [List.length_eq_zero] at hx
      subst hx
      rfl
    · rw [chunksOf, dif_neg hx, List.flatten_cons,
        ih (xs.drop (max 1 c)) (by
          simp only [List.length_drop]
          omega),
        List.take_append_drop]

theorem chunksOf_flatten {α : Type} (c : ℕ) (xs : List α) :
    (chunksOf c xs).flatten = xs :=
  chunksOf_flatten_aux c xs.length xs (le_refl _)

theorem parMap_eq_map {α β : Type} (nw : ℕ) (f : α → β) (xs : List α) :
    parMap nw f xs = xs.map f := by
  rw [parMap, ← List.map_flatten, chunksOf_flatten]

theorem get_processed_pool_size_irrelevant (PS : Option (ℕ × ℕ)) (POOL : ℕ)
    (img : Image) (tiles : Library) (pshift : Option PShiftArg) (m : ℕ) :
    get_processed_image_boxes_from_img PS POOL img tiles (some m) pshift =
      get_processed_image_boxes_from_img PS POOL img tiles (some 1) pshift := by
  simp only [get_processed_image_boxes_from_img, Option.getD_some]
  refine congrArg (fun l => (l, imgShape img)) ?_
  refine congrArg (fun f => (sortItemsDesc tiles).flatMap f) (funext fun rts => ?_)
  by_cases h : 1 < m
  · simp only [if_pos h, if_neg (by omega : ¬ (1 : ℕ) < 1), parMap_eq_map]
  · simp only [if_neg h, if_neg (by omega : ¬ (1 : ℕ) < 1)]

/-- C9: the single-worker sequential path and the pool path of the
box-processing phase produce identical boxes in identical order for every
worker count, and the composed mosaic built from the two box pools is
identical for every distance ordering and overlap configuration; the
embedding is a pure function of (image, library, config), so repeated runs
are byte-identical by construction. -/
theorem C9_single_and_multi_worker_equal (PS : Option (ℕ × ℕ)) (POOL : ℕ)
    (img : Image) (tiles : Library) (pshift : Option PShiftArg) (n : ℕ) :
    get_processed_image_boxes_from_img PS POOL img tiles (some 1) pshift =
      get_processed_image_boxes_from_img PS POOL img tiles (some n) pshift ∧
    (∀ (le : Option MatchDist → Option MatchDist → Bool) (ovG : Bool)
      (ovp : Option Bool) (res : ℕ × ℕ),
      create_tiled_image_config le ovG
        (get_processed_image_boxes_from_img PS POOL img tiles (some 1) pshift).1
        res ovp =
      create_tiled_image_config le ovG
        (get_processed_image_boxes_from_img PS POOL img tiles (some n) pshift).1
        res ovp) := by
  constructor
  · exact (get_processed_pool_size_irrelevant PS POOL img tiles pshift n).symm
  · intro le ovG ovp res
    rw [get_processed_pool_size_irrelevant PS POOL img tiles pshift n]
